import Mathlib

/-!
# FuzzySearch.js — formal model and verification

A shallow embedding of the scoring and matching kernel of the FuzzySearch
library.  JavaScript strings are modelled as `List Char`, JS numbers used
for scores as `ℚ` (all score arithmetic in the library stays within exactly
representable ranges on the inputs considered here), and JS 32-bit integer
bit twiddling as `ℕ` with explicit `% 2^32` at the points where JS coerces
with `ToInt32`.  JS objects used as char→value dictionaries are modelled as
`Char → Option _` functions (`none` = key absent).

Definitions are translated from the source (`FuzzySearch.js`); reference
(spec-side) notions such as the length of a longest common subsequence are
clearly named `...Spec`.
-/

namespace FuzzySearch

/-- A token / string, as a list of UTF-16-ish code units. -/
abbrev Str := List Char

/-- Number of bits in a JS int (source constant `INT_SIZE`). -/
def INT_SIZE : ℕ := 32

/-- Scoring-relevant configuration options (source `FuzzySearch.defaultOptions`);
default values are the source defaults.  Output/interactive options that the
modelled kernel reads are included; glue options are omitted. -/
structure Options where
  minimum_match : ℚ := 1
  thresh_include : ℚ := 2
  thresh_relative_to_best : ℚ := 1/2
  field_good_enough : ℚ := 20
  bonus_match_start : ℚ := 1/2
  bonus_token_order : ℚ := 2
  bonus_position_decay : ℚ := 7/10
  score_per_token : Bool := true
  score_test_fused : Bool := false
  score_round : ℚ := 1/10
  output_limit : ℕ := 0
  token_query_min_length : ℕ := 2
  token_field_min_length : ℕ := 3
  token_query_max_length : ℕ := 64
  token_field_max_length : ℕ := 64
  token_fused_max_length : ℕ := 64
  token_min_rel_size : ℚ := 3/5
  token_max_rel_size : ℚ := 6
  dirty : Bool := false
deriving DecidableEq

/-- The source defaults. -/
def defaultOptions : Options := {}

/-- Bit-mask alphabet map of the short-token variant: char → bitmask
(`FuzzySearch.bitVector`'s output type). -/
abbrev BitMap := Char → Option ℕ

/-- The empty JS object `{}`. -/
def emptyBitMap : BitMap := fun _ => none

/-- Inner loop of `FuzzySearch.bitVector`: `map[c] |= (1 << b++)`,
starting at bit `b = off`. -/
def bitVecGo : Str → ℕ → BitMap → BitMap
  | [], _, mp => mp
  | c :: rest, b, mp =>
      bitVecGo rest (b + 1)
        (fun d => if d = c then some ((mp c).getD 0 ||| (1 <<< b)) else mp d)

/-- `FuzzySearch.bitVector token map offset`: record the position of each char
of `token` as a single bit, starting at bit `offset`, into `map`. -/
def bitVector (token : Str) (map : BitMap) (offset : ℕ) : BitMap :=
  bitVecGo token offset map

/-- Positions in the source are JS numbers compared against `Infinity`
(and against the initial `-1` cursor), so we model them as `WithTop ℤ`. -/
abbrev EPos := WithTop ℤ

/-- Position-list alphabet map of the long-token variant
(`FuzzySearch.posVector`'s output type). -/
abbrev PosMap := Char → Option (List EPos)

/-- Collect the (finite) positions of each char, in order. -/
def posVecGo : Str → ℕ → (Char → Option (List ℕ)) → (Char → Option (List ℕ))
  | [], _, mp => mp
  | c :: rest, i, mp =>
      posVecGo rest (i + 1)
        (fun d => if d = c then some ((mp c).getD [] ++ [i]) else mp d)

/-- `FuzzySearch.posVector pattern`: char → ordered list of positions,
with an `Infinity` sentinel appended to every list. -/
def posVector (pattern : Str) : PosMap :=
  fun c => (posVecGo pattern 0 (fun _ => none) c).map
    (fun l => l.map (fun i => ((i : ℤ) : EPos)) ++ [(⊤ : EPos)])

/-- An alphabet map is one of the two variants (the spec's tagged variant;
in JS the two are distinguished only by the caller's contract). -/
inductive AlphaMap where
  | bits (mp : BitMap)
  | pos (mp : PosMap)

/-- View an `AlphaMap` as a bit map.  A `pos` map used where a bit map is
expected makes every JS bitwise read coerce the position array to `0`
(`ToInt32` of a multi-element array is `0`), which is exactly the behaviour
of an always-absent bit map. -/
def AlphaMap.getBits : AlphaMap → BitMap
  | .bits mp => mp
  | .pos _ => fun _ => none

/-- View an `AlphaMap` as a position map.  Valid callers only do this with
the `pos` variant; the `bits` fallback is unreachable in valid use. -/
def AlphaMap.getPos : AlphaMap → PosMap
  | .pos mp => mp
  | .bits _ => fun _ => none

/-- `FuzzySearch.alphabet token`: dispatch on the token length. -/
def alphabet (token : Str) : AlphaMap :=
  if token.length > INT_SIZE then .pos (posVector token)
  else .bits (bitVector token emptyBitMap 0)

/-- The common-prefix loop shared by `score_map` and `score_pack`:
`while ((a[p] === b[p]) && (++p < k)) {}` starting from `p = 0`.  Its result
is the length of the longest common prefix, implicitly capped at
`min |a| |b|`. -/
def commonPfx : Str → Str → ℕ
  | x :: xs, y :: ys => if x = y then commonPfx xs ys + 1 else 0
  | _, _ => 0

/-- A block `[start, stop)` of consecutive increase positions of a DP line
(source constructor `Block(start, end)`; `end` is a Lean keyword, renamed
`stop`). -/
structure Block where
  start : EPos
  stop : EPos
deriving DecidableEq

/-- JS `block.end - block.start`: `none` models `NaN` (`Infinity - Infinity`,
  arising for the sentinel block); every comparison of `NaN` is false. -/
def blockSize (b : Block) : Option ℤ :=
  match b.start, b.stop with
  | (s : ℤ), (e : ℤ) => some (e - s)
  | _, _ => none

/-- `block_size === 1` under the JS `NaN` rules. -/
def blockSizeIsOne (b : Block) : Bool :=
  match blockSize b with
  | some z => z = 1
  | none => false

/-- `block_size > 1` under the JS `NaN` rules. -/
def blockSizeGtOne (b : Block) : Bool :=
  match blockSize b with
  | some z => 1 < z
  | none => false

/-- `while (match_pos < last_end) { match_pos = match_list[++match_index]; }`:
advance the match cursor past `last_end`.  The `Infinity` sentinel of
`posVector` guarantees the list is never exhausted while the guard holds;
the `[]` case is therefore unreachable and returns the cursor unchanged. -/
def advanceMatch (mpos : EPos) (ml : List EPos) (last_end : EPos) :
    EPos × List EPos :=
  if mpos < last_end then
    match ml with
    | m :: rest => advanceMatch m rest last_end
    | [] => (mpos, [])
  else (mpos, ml)

/-- `current_line[line_index].end++` (the dominant match extends the most
recently appended block).  `current_line` is threaded in reverse order, so
the most recent block is the head.  The list is never empty when this is
reached (the first dominant match of a line cannot satisfy
`match_pos === last_end` since `last_end = -1` there). -/
def bumpHead : List Block → List Block
  | b :: rest => { b with stop := b.stop + 1 } :: rest
  | [] => []

/-- The walk over `last_line`'s blocks for one character of `b`
(the body of `while (++block_index < nblock)` in `llcs_large`, plus the
`if (block_start > match_pos)` check that follows it).  `curRev` is
`current_line` in reverse; returns the finished reversed line and whether
`lcs_len` was incremented.  `prevEnd` is `block_end` of the previous
iteration (initially `-1`), `lastB` the previously read block (its `start`
and identity are what the post-loop check uses). -/
def llGo : List Block → List Block → EPos → List EPos → EPos → Block →
    List Block × Bool
  | [], curRev, mpos, _, _, lastB =>
      if lastB.start > mpos then (lastB :: curRev, true) else (curRev, false)
  | b :: rest, curRev, mpos, ml, prevEnd, _ =>
      let last_end := prevEnd
      let am := advanceMatch mpos ml last_end
      let mpos' := am.1
      let ml' := am.2
      if b.start ≤ mpos' then
        llGo rest (b :: curRev) mpos' ml' b.stop b
      else
        let cur1 :=
          if mpos' = last_end then bumpHead curRev
          else Block.mk mpos' (mpos' + 1) :: curRev
        let cur2 :=
          if blockSizeGtOne b then Block.mk (b.start + 1) b.stop :: cur1
          else cur1
        llGo rest cur2 mpos' ml' b.stop b

/-- Process one character of `b` whose match list is `ml` (nonempty: it ends
with the `Infinity` sentinel).  Returns the new `last_line` (in order) and
whether the LLCS increased. -/
def processLine (lastLine : List Block) (ml : List EPos) : List Block × Bool :=
  match ml with
  | m0 :: mrest =>
      let r := llGo lastLine [] m0 mrest ((-1 : ℤ) : EPos) (Block.mk (-1) (-1))
      (r.1.reverse, r.2)
  | [] => (lastLine, false)

/-- `FuzzySearch.llcs_large a b aMap prefix`: LLCS via the input-sensitive
block algorithm, rows seeded with the common prefix. -/
def llcs_large (_a b : Str) (aMap : PosMap) (pfx : ℕ) : ℕ :=
  let sentinel := Block.mk (⊤ : EPos) (⊤ : EPos)
  let init : List Block :=
    if pfx ≠ 0 then [Block.mk 0 (pfx : ℤ), sentinel] else [sentinel]
  let r := (b.drop pfx).foldl
    (fun st c =>
      match aMap c with
      | none => st
      | some ml =>
          let pr := processLine st.1 ml
          (pr.1, st.2 + if pr.2 then 1 else 0))
    (init, pfx)
  r.2

/-- The SWAR popcount of `score_map` (source lines `S = S - ((S >> 1) & ...`
through `... * 0x01010101) >> 24`).  The multiplication overflows 32 bits in
JS and is truncated by `ToInt32` before the final shift, hence the
`% 2 ^ 32`. -/
def swar32 (S : ℕ) : ℕ :=
  let S1 := S - ((S >>> 1) &&& 0x55555555)
  let S2 := (S1 &&& 0x33333333) + ((S1 >>> 2) &&& 0x33333333)
  ((((S2 + (S2 >>> 4)) &&& 0x0F0F0F0F) * 0x01010101) % 2 ^ 32) >>> 24

/-- One step of the bit-parallel sweep of `score_map`:
`if (c in aMap) { U = S & aMap[c]; S = (S + U) | (S - U); }`.
The `|` coerces to 32 bits in JS, hence the `% 2 ^ 32`. -/
def sweepStep (aMap : BitMap) (S : ℕ) (c : Char) : ℕ :=
  match aMap c with
  | none => S
  | some mc =>
      let U := S &&& mc
      ((S + U) ||| (S - U)) % 2 ^ 32

/-- The LLCS value computed by the bit-parallel short-token path of
`score_map` (lines `var mask = (1 << m) - 1` through `lcs_len += prefix`),
exposed as its own definition. -/
def llcs_bitvec (a b : Str) (aMap : BitMap) (pfx : ℕ) : ℕ :=
  let m := a.length
  let mask := (1 <<< m) - 1
  let Sf := (b.drop pfx).foldl (sweepStep aMap) mask
  let mask2 := mask &&& (((1 <<< pfx) - 1) ^^^ 0xFFFFFFFF)
  swar32 ((Sf ^^^ 0xFFFFFFFF) &&& mask2) + pfx

/-- `FuzzySearch.score_map a b aMap options`: score of searching token `a`
in token `b`, using the precomputed alphabet map of `a`. -/
def score_map (a b : Str) (aMap : AlphaMap) (options : Options) : ℚ :=
  let m := a.length
  let n := b.length
  let bonus_pfx := options.bonus_match_start
  let k := min m n
  if k = 0 ∨ (n : ℚ) < options.token_min_rel_size * m
      ∨ (n : ℚ) > options.token_max_rel_size * m then 0
  else
    let sz_score : ℚ := (m + n) / (2 * m * n)
    let pfx := if a = b then k else commonPfx a b
    if pfx = k then
      sz_score * pfx * pfx + bonus_pfx * pfx
    else if m > INT_SIZE then
      let lcs_len := llcs_large a b aMap.getPos pfx
      sz_score * lcs_len * lcs_len + bonus_pfx * pfx
    else
      let lcs_len := llcs_bitvec a b aMap.getBits pfx
      sz_score * lcs_len * lcs_len + bonus_pfx * pfx

/-- A group of tokens packed into one machine word (source `PackInfo`).
The transient per-query arrays `score_item`, `score_field`, `field_pos` are
threaded explicitly through the scoring functions instead. -/
structure PackInfo where
  tokens : List Str
  map : AlphaMap
  gate : ℕ

/-- One step of the packed sweep of `score_pack`:
`U = S & aMap[c]; S = ((S & ZM) + (U & ZM)) | (S - U)`. -/
def packStep (aMap : BitMap) (ZM : ℕ) (S : ℕ) (c : Char) : ℕ :=
  match aMap c with
  | none => S
  | some mc =>
      let U := S &&& mc
      (((S &&& ZM) + (U &&& ZM)) ||| (S - U)) % 2 ^ 32

/-- The Kernighan popcount loop of `score_pack`:
`while (Sm) { Sm &= Sm - 1; lcs_len++ }`.  Each iteration strictly
decreases `Sm`, so `Sm` itself is a sufficient structural fuel. -/
def popLoopGo : ℕ → ℕ → ℕ
  | 0, _ => 0
  | fuel + 1, sm => if sm = 0 then 0 else popLoopGo fuel (sm &&& (sm - 1)) + 1

/-- Number of iterations of the `while (Sm)` loop in `score_pack`. -/
def popLoop (sm : ℕ) : ℕ := popLoopGo sm sm

/-- The per-lane extraction loop of `score_pack` (`while (++k < nb_packed)`),
with `S` already inverted.  `n` is the field-token length, `off` is the
running `offset`. -/
def packLanes (options : Options) (S : ℕ) (field_token : Str) :
    List Str → ℕ → List ℚ
  | [], _ => []
  | query_tok :: rest, off =>
      let m := query_tok.length
      let n := field_token.length
      if (n : ℚ) < options.token_min_rel_size * m
          ∨ (n : ℚ) > options.token_max_rel_size * m then
        0 :: packLanes options S field_token rest (off + m)
      else
        let pl : ℕ × ℕ :=
          if query_tok = field_token then (m, m)
          else
            let pfx := commonPfx query_tok field_token
            let Sm := ((S >>> off) &&& ((1 <<< m) - 1)) >>> pfx
            (pfx, pfx + popLoop Sm)
        let sz : ℚ := (m + n) / (2 * m * n)
        (sz * pl.2 * pl.2 + options.bonus_match_start * pl.1)
          :: packLanes options S field_token rest (off + m)

/-- `FuzzySearch.score_pack packinfo field_token options`: score every token
of a packed group against `field_token` in one sweep. -/
def score_pack (packinfo : PackInfo) (field_token : Str) (options : Options) :
    List ℚ :=
  let ZM := packinfo.gate
  let Sf := field_token.foldl (packStep packinfo.map.getBits ZM) 0xFFFFFFFF
  let S := Sf ^^^ 0xFFFFFFFF
  packLanes options S field_token packinfo.tokens 0

/-- The token-packing loop of `FuzzySearch.pack_tokens`.  The accumulator is
the open group `(accTok, accMap, offset, gate)`; a token of length
≥ `INT_SIZE` closes the group and is emitted solo with the long-token
(position-vector) alphabet; a token that no longer fits closes the group and
restarts with an empty accumulator (the source's `token_index--`).
Termination: the restart case only occurs with a nonempty accumulator
(`offset ≠ 0`). -/
def packGo : List Str → List Str → BitMap → ℕ → ℕ → List PackInfo
  | [], accTok, accMap, _, gate =>
      if accTok ≠ [] then [PackInfo.mk accTok.reverse (.bits accMap) gate]
      else []
  | token :: rest, accTok, accMap, offset, gate =>
      let l := token.length
      if l ≥ INT_SIZE then
        (if accTok ≠ [] then [PackInfo.mk accTok.reverse (.bits accMap) gate]
         else [])
          ++ PackInfo.mk [token] (.pos (posVector token)) 0xFFFFFFFF
          :: packGo rest [] emptyBitMap 0 0
      else if l + offset ≥ INT_SIZE then
        PackInfo.mk accTok.reverse (.bits accMap) gate
          :: packGo (token :: rest) [] emptyBitMap 0 0
      else
        packGo rest (token :: accTok) (bitVector token accMap offset)
          (offset + l) (gate ||| (((1 <<< (l - 1)) - 1) <<< offset))
termination_by toks _ _ offset _ => toks.length * 2 + min offset 1
decreasing_by
  all_goals simp_wf
  all_goals simp only [INT_SIZE, min_def] at *
  all_goals try split_ifs
  all_goals omega

/-- `FuzzySearch.pack_tokens tokens`: pack a token list into groups of up
to `INT_SIZE` bits. -/
def pack_tokens (tokens : List Str) : List PackInfo :=
  packGo tokens [] emptyBitMap 0 0

/-- Spec-side reference definition: the length of a longest common
subsequence of two strings, by the classic recursion.  This is the notion
the spec's scoring formulas refer to; it is not part of the source. -/
def llcsSpec : Str → Str → ℕ
  | [], _ => 0
  | _ :: _, [] => 0
  | x :: xs, y :: ys =>
      if x = y then llcsSpec xs ys + 1
      else max (llcsSpec xs (y :: ys)) (llcsSpec (x :: xs) ys)

/-- `field_tokens.join(" ")`. -/
def joinSpace (fields : List Str) : Str := List.intercalate [' '] fields

/-- The source `Query` object.  The transient `fused_score` and the
per-group transient arrays are threaded explicitly through the scoring
functions. -/
structure Query where
  normalized : Str
  tokens_groups : List PackInfo
  fused_str : Str
  fused_map : AlphaMap
  single : Bool

/-- Update the per-lane `(best_of_field, best_index)` pairs with the lane
scores of one field token (`if (sc > best_of_field[i]) {...}`). -/
def updBest (cur : List (ℚ × ℕ)) (scores : List ℚ) (idx : ℕ) :
    List (ℚ × ℕ) :=
  List.zipWith (fun c s => if s > c.1 then (s, idx) else c) cur scores

/-- The inner field-token loop of `_scoreField` for one group: per-lane best
score over the field's tokens together with the producing token index
(both initialised to `0`). -/
def bestOverField (o : Options) (g : PackInfo) (field_tokens : List Str) :
    List (ℚ × ℕ) :=
  field_tokens.enum.foldl
    (fun cur it =>
      let scores :=
        if g.tokens.length = 1 then
          [score_map (g.tokens.getD 0 []) it.2 g.map o]
        else score_pack g it.2 o
      updBest cur scores it.1)
    (g.tokens.map fun _ => ((0 : ℚ), 0))

/-- The per-lane accumulation loop of `_scoreField` (`for (i...) { sc = ...`):
adds lane bests into `field_score`, maxes them into `score_item`, and adds
the token-order bonus using the running `last_index`.  Returns the updated
`(field_score, score_item entries, last_index)`. -/
def laneLoop (o : Options) :
    List (ℚ × ℕ) → List ℚ → ℚ → ℤ → ℚ × List ℚ × ℤ
  | [], _, fs, li => (fs, [], li)
  | b :: rest, scItem, fs, li =>
      let sc := b.1
      let itemCur := scItem.headD 0
      let item' := if sc > itemCur then sc else itemCur
      let fs1 := fs + sc
      let upd : ℚ × ℤ :=
        if sc > o.minimum_match then
          (if (b.2 : ℤ) > li then fs1 + o.bonus_token_order else fs1, (b.2 : ℤ))
        else (fs1, li)
      let r := laneLoop o rest scItem.tail upd.1 upd.2
      (r.1, item' :: r.2.1, r.2.2)

/-- The group loop of `_scoreField`, threading `field_score`, the per-group
`score_item` lists and `last_index`. -/
def sfGroups (o : Options) (field_tokens : List Str) :
    List PackInfo → List (List ℚ) → ℚ → ℤ → ℚ × List (List ℚ)
  | [], _, fs, _ => (fs, [])
  | g :: gs, scItems, fs, li =>
      let bests := bestOverField o g field_tokens
      let r1 := laneLoop o bests (scItems.headD []) fs li
      let r2 := sfGroups o field_tokens gs scItems.tail r1.1 r1.2.2
      (r2.1, r1.2.1 :: r2.2)

/-- `FuzzySearch.prototype._scoreField field_tokens query` with the
transient state (`score_item` per group, `query.fused_score`) passed and
returned explicitly. -/
def scoreField (o : Options) (q : Query) (field_tokens : List Str)
    (scItem : List (List ℚ)) (fused_sc : ℚ) : ℚ × List (List ℚ) × ℚ :=
  let r := sfGroups o field_tokens q.tokens_groups scItem 0 (-1)
  if o.score_test_fused then
    let fused := score_map q.fused_str (joinSpace field_tokens) q.fused_map o
    (if fused > r.1 then fused else r.1, r.2,
     if fused > fused_sc then fused else fused_sc)
  else (r.1, r.2, fused_sc)

/-- `FuzzySearch.prototype._scoreFieldSingle field_tokens query`, the fast
pass for single-token queries; returns the field score and the updated
`query.fused_score`. -/
def scoreFieldSingle (o : Options) (q : Query) (field_tokens : List Str)
    (fused_sc : ℚ) : ℚ × ℚ :=
  let fs := field_tokens.foldl
    (fun acc tok =>
      let sc := score_map q.fused_str tok q.fused_map o
      if sc > acc then sc else acc) 0
  if o.score_test_fused then
    let fused := score_map q.fused_str (joinSpace field_tokens) q.fused_map o
    (if fused > fs then fused else fs,
     if fused > fused_sc then fused else fused_sc)
  else (fs, fused_sc)

/-- An indexed record: original item plus cached normalised field tokens
(source constructor `Indexed`). -/
structure Indexed (α : Type) where
  item : α
  fields : List (List Str)

/-- Source constructor `SearchResult`. -/
structure SearchResult (α : Type) where
  item : α
  fields : List (List Str)
  score : ℚ
  matchIndex : ℤ
  sortKey : Str

/-- JS `Math.round`: round half towards `+∞`. -/
def jsRound (x : ℚ) : ℤ := ⌊x + 1/2⌋

/-- `Math.round(item_score / score_round) * score_round`. -/
def roundScore (o : Options) (x : ℚ) : ℚ :=
  (jsRound (x / o.score_round) : ℚ) * o.score_round

/-- The per-field loop of `_searchIndex` for one item, threading
`item_score`, `matched_field_index`, `position_bonus`, the `score_item`
arrays and `query.fused_score`; `idx` is `field_index`.  The loop breaks
once a field's boosted score beats both `item_score` and
`field_good_enough`. -/
def fieldLoop (o : Options) (q : Query) :
    List (List Str) → ℕ → ℚ → ℤ → ℚ → List (List ℚ) → ℚ →
    ℚ × ℤ × List (List ℚ) × ℚ
  | [], _, is, mi, _, scI, fu => (is, mi, scI, fu)
  | f :: rest, idx, is, mi, pb, scI, fu =>
      let r : ℚ × List (List ℚ) × ℚ :=
        if o.score_per_token then
          if q.single then
            let t := scoreFieldSingle o q f fu
            (t.1, scI, t.2)
          else scoreField o q f scI fu
        else
          (score_map q.fused_str (joinSpace f) q.fused_map o, scI, fu)
      let fsc := r.1 * (1 + pb)
      let pb' := pb * o.bonus_position_decay
      if fsc > is then
        if fsc > o.field_good_enough then (fsc, (idx : ℤ), r.2.1, r.2.2)
        else fieldLoop o q rest (idx + 1) fsc (idx : ℤ) pb' r.2.1 r.2.2
      else fieldLoop o q rest (idx + 1) is mi pb' r.2.1 r.2.2

/-- The per-item part of `_searchIndex`: reset the transient state, run the
field loop, then mix in `query_score` for multi-token queries.  Returns the
final `item_score` and `matched_field_index`. -/
def scoreItem (o : Options) (q : Query) (fields : List (List Str)) : ℚ × ℤ :=
  let scI0 := q.tokens_groups.map (fun g => g.tokens.map fun _ => (0 : ℚ))
  let r := fieldLoop o q fields 0 0 (-1) 1 scI0 0
  if o.score_per_token ∧ ¬q.single then
    let qs := (r.2.2.1.map (fun l => l.sum)).sum
    let qs := if r.2.2.2 > qs then r.2.2.2 else qs
    (1/2 * r.1 + 1/2 * qs, r.2.1)
  else (r.1, r.2.1)

/-- The item loop of `_searchIndex`, threading the result list, the running
`thresh_include` and `best_item_score`. -/
def searchIndexGo (o : Options) (q : Query) :
    List (Indexed α) → List (SearchResult α) → ℚ → ℚ →
    List (SearchResult α) × ℚ
  | [], results, thresh, _ => (results, thresh)
  | it :: rest, results, thresh, best =>
      let r := scoreItem o q it.fields
      let is := r.1
      let bt : ℚ × ℚ :=
        if is > best then
          (is,
           if is * o.thresh_relative_to_best > thresh then
             is * o.thresh_relative_to_best
           else thresh)
        else (best, thresh)
      let results' :=
        if is > bt.2 then
          results ++ [SearchResult.mk it.item it.fields (roundScore o is) r.2
            (joinSpace (it.fields.headD []))]
        else results
      searchIndexGo o q rest results' bt.2 bt.1

/-- `FuzzySearch.prototype._searchIndex query source results`: returns the
accumulated results and the final running threshold. -/
def searchIndex (o : Options) (q : Query) (source : List (Indexed α)) :
    List (SearchResult α) × ℚ :=
  searchIndexGo o q source [] o.thresh_include 0

/-- `FuzzySearch.filterGTE array "score" compareto`. -/
def filterGTE (l : List (SearchResult α)) (compareto : ℚ) :
    List (SearchResult α) :=
  l.filter (fun r => r.score ≥ compareto)

/-- The sort order of the source comparator `compareResults`: decreasing
score, ties by ascending `sortKey`. -/
def resultLE (a b : SearchResult α) : Bool :=
  decide (b.score < a.score ∨ (b.score = a.score ∧ ¬ b.sortKey < a.sortKey))

/-- `FuzzySearch.filterSize array minSize maxSize`: drop strings shorter
than `minSize`, truncate strings of length ≥ `maxSize`. -/
def filterSize (array : List Str) (minSize maxSize : ℕ) : List Str :=
  array.filterMap
    (fun str =>
      if str.length ≥ minSize then
        some (if str.length < maxSize then str else str.take maxSize)
      else none)

/-- `norm_query.split(" ")`. -/
def splitSpace (s : Str) : List Str := s.splitOn ' '

/-- `FuzzySearch.prototype._prepQuery` after normalisation (normalisation of
the raw query string is an external collaborator in the spec's data model;
the model takes the already normalised query). -/
def prepQuery (o : Options) (norm_query : Str) : Query :=
  let tokens :=
    if o.score_per_token then
      filterSize (splitSpace norm_query) o.token_query_min_length
        o.token_query_max_length
    else []
  let single := tokens.length < 2
  let groups := if single then [] else pack_tokens tokens
  let fused := norm_query.take
    (if single then o.token_field_max_length else o.token_fused_max_length)
  let map :=
    if o.score_test_fused ∨ ¬o.score_per_token ∨ single then alphabet fused
    else .bits emptyBitMap
  Query.mk norm_query groups fused map single

/-- `FuzzySearch.prototype.search` on an up-to-date index (`dirty = false`),
with the default output transform `output_map = "root.item"` and the default
sorter.  Returns the original items of the retained results, best first. -/
def search (o : Options) (index : List (Indexed α)) (norm_query : Str) :
    List α :=
  let q := prepQuery o norm_query
  let r := searchIndex o q index
  let results := filterGTE r.1 r.2
  let results := List.mergeSort results resultLE
  let n :=
    if 0 < o.output_limit ∧ o.output_limit < results.length then
      o.output_limit
    else results.length
  (results.take n).map (·.item)

/-- `FuzzySearch.prototype.score a b` (options as `this`). -/
def score (o : Options) (a b : Str) : ℚ := score_map a b (alphabet a) o

/-!
### The token assignment solver

Translated from the `matchTokens` family of `src/FuzzySearch.js`.  The
`cache_tree` array of JS objects (depth → used-mask → `[bestscore, index]`)
is modelled as a function updated functionally.  The recursion depth of
`_buildScoreTree` is bounded by the number of rows, which serves as
structural fuel (`_buildScoreTree` recurses only while `depth < ilen - 1`,
so a top-level call with fuel `ilen` never exhausts it).
-/

/-- The memoisation structure `cache_tree`. -/
abbrev Cache := ℕ → ℕ → Option (ℚ × ℤ)

/-- The column loop of `_buildScoreTree` (`for (j = 0; j < jlen; j++)`),
with the "cached child value or recursive call" step abstracted as
`child` (the source's `child_key in child_tree ? child_tree[child_key][0]
: _buildScoreTree(...)`).  State is `(bestscore, bestindex, cache_tree)`. -/
def bstLoop (row : List ℚ) (th : ℚ) (used : ℕ) (hc : Bool)
    (child : Cache → ℕ → ℚ × Cache) :
    List ℕ → ℚ × ℤ × Cache → ℚ × ℤ × Cache
  | [], st => st
  | j :: js, st =>
      let st' :=
        if used &&& (1 <<< j) ≠ 0 then st
        else
          let sc := row.getD j 0
          if sc < th then st
          else
            let scc : ℚ × Cache :=
              if hc then
                let r := child st.2.2 (used ||| (1 <<< j))
                (sc + r.1, r.2)
              else (sc, st.2.2)
            if scc.1 > st.1 then (scc.1, (j : ℤ), scc.2)
            else (st.1, st.2.1, scc.2)
      bstLoop row th used hc child js st'

/-- `FuzzySearch._buildScoreTree C cache used_mask depth thresholds`,
returning the best score and the updated cache.  A cached child value is
read from the cache, otherwise computed (and memoised) by the recursive
call; the cache-hit branch leaves the cache unchanged, which is the
source's behaviour. -/
def buildScoreTree (C : List (List ℚ)) (ths : List ℚ) :
    ℕ → Cache → ℕ → ℕ → ℚ × Cache
  | 0, cache, _, _ => (0, cache)
  | fuel + 1, cache, used, depth =>
      let row := C.getD depth []
      let jlen := min row.length 32
      let include_th := ths.getD depth 0
      let has_childs := decide (depth < C.length - 1)
      let child : Cache → ℕ → ℚ × Cache := fun κc key =>
        match κc (depth + 1) key with
        | some e => (e.1, κc)
        | none => buildScoreTree C ths fuel κc key (depth + 1)
      let st := bstLoop row include_th used has_childs child
        (List.range jlen) (0, -1, cache)
      let st2 :=
        if has_childs then
          let r := child st.2.2 used
          if r.1 > st.1 then (r.1, (-1 : ℤ), r.2)
          else (st.1, st.2.1, r.2)
        else st
      (st2.1,
       fun d m =>
         if d = depth then
           if m = used then some (st2.1, st2.2.1) else st2.2.2 d m
         else st2.2.2 d m)

/-- `FuzzySearch._matchScoreGrid C match thresholds`: solve, then trace the
chosen column for every row back through the cache (`match` starts as all
`-1`, as initialised by `matchTokens`).  Returns the best score and the
match vector. -/
def matchScoreGrid (C : List (List ℚ)) (ths : List ℚ) : ℚ × List ℤ :=
  let ilen := C.length
  let r := buildScoreTree C ths ilen (fun _ _ => none) 0 0
  let tb :=
    (List.range ilen).foldl
      (fun (st : ℕ × List ℤ × Bool) i =>
        if st.2.2 then st
        else
          match r.2 i st.1 with
          | none => (st.1, st.2.1, true)
          | some e =>
              (if e.2 > -1 then st.1 ||| (1 <<< e.2.toNat) else st.1,
               st.2.1.set i e.2, false))
      (0, List.replicate ilen (-1), false)
  (r.1, tb.2.1)

/-!
### Proof-side definitions for the SWAR popcount argument
-/

/-- Population count (number of set bits), the specification `swar32`
implements. -/
def popc : ℕ → ℕ
  | 0 => 0
  | n + 1 => popc ((n + 1) / 2) + (n + 1) % 2
decreasing_by omega

/-- Apply `popc` to every base-4 digit in place (`t - t / 2` is `popc t`
for `t < 4`). -/
def pcDigits4 (x : ℕ) : ℕ :=
  if x = 0 then 0 else (x % 4 - x % 4 / 2) + 4 * pcDigits4 (x / 4)
decreasing_by exact Nat.div_lt_self (by omega) (by omega)

/-- Replace every base-16 digit by the sum of its two base-4 digits. -/
def sumPairs4 (x : ℕ) : ℕ :=
  if x = 0 then 0 else (x % 16 % 4 + x % 16 / 4) + 16 * sumPairs4 (x / 16)
decreasing_by exact Nat.div_lt_self (by omega) (by omega)

/-- Replace every base-256 digit by the sum of its two base-16 digits. -/
def sumPairs16 (x : ℕ) : ℕ :=
  if x = 0 then 0 else (x % 256 % 16 + x % 256 / 16) + 256 * sumPairs16 (x / 256)
decreasing_by exact Nat.div_lt_self (by omega) (by omega)

/-- Sum of the base-4 digits. -/
def dsum4 (x : ℕ) : ℕ :=
  if x = 0 then 0 else x % 4 + dsum4 (x / 4)
decreasing_by exact Nat.div_lt_self (by omega) (by omega)

/-- Sum of the base-16 digits. -/
def dsum16 (x : ℕ) : ℕ :=
  if x = 0 then 0 else x % 16 + dsum16 (x / 16)
decreasing_by exact Nat.div_lt_self (by omega) (by omega)

/-- Sum of the base-256 digits. -/
def dsum256 (x : ℕ) : ℕ :=
  if x = 0 then 0 else x % 256 + dsum256 (x / 256)
decreasing_by exact Nat.div_lt_self (by omega) (by omega)

/-- The masks `0x5…5`, `0x3…3`, `0x0F…0F` of the SWAR stages, one digit at
a time. -/
def m55 : ℕ → ℕ
  | 0 => 0
  | k + 1 => 4 * m55 k + 1

/-- See `m55`. -/
def m33 : ℕ → ℕ
  | 0 => 0
  | k + 1 => 16 * m33 k + 3

/-- See `m55`. -/
def m0F : ℕ → ℕ
  | 0 => 0
  | k + 1 => 256 * m0F k + 15

/-- Every base-4 digit is at most 2. -/
def Digits4Le2 (x : ℕ) : Prop := ∀ i, x / 4 ^ i % 4 ≤ 2

/-- Every base-16 digit is at most 4. -/
def Digits16Le4 (x : ℕ) : Prop := ∀ i, x / 16 ^ i % 16 ≤ 4

/-- Every base-256 digit is at most 8. -/
def Digits256Le8 (x : ℕ) : Prop := ∀ i, x / 256 ^ i % 256 ≤ 8

/-- Total length of a list of tokens. -/
def lenSum (g : List Str) : ℕ := (g.map List.length).sum

/-- Position `q` carries character `c` in the lane layout of the token
list `g` laid out from bit `off`: some token's lane contains `q` and the
token's character at the in-lane position is `c`. -/
def LaneChar : List Str → ℕ → ℕ → Char → Prop
  | [], _, _, _ => False
  | t :: rest, off, q, c =>
      (off ≤ q ∧ q < off + t.length ∧ t.get? (q - off) = some c) ∨
      LaneChar rest (off + t.length) q c

/-- Position `q` is a gate bit for the lane layout of `g` from bit `off`:
inside some lane but strictly below its top bit. -/
def LaneGate : List Str → ℕ → ℕ → Prop
  | [], _, _ => False
  | t :: rest, off, q =>
      (off ≤ q ∧ q + 1 < off + t.length) ∨ LaneGate rest (off + t.length) q

/-- The packing invariant for one emitted group: either a solo long token
carrying the position-vector alphabet, or a packed group of nonempty short
tokens whose total length fits the word, whose combined bit map sets a bit
exactly where the owning lane's token has the matching character, and whose
gate sets a bit exactly strictly inside a lane (hence never at a lane's top
bit). -/
def GroupOK (g : PackInfo) : Prop :=
  (∃ t, INT_SIZE ≤ t.length ∧ g.tokens = [t] ∧
    g.map = AlphaMap.pos (posVector t) ∧ g.gate = 0xFFFFFFFF) ∨
  ((∀ t ∈ g.tokens, t ≠ [] ∧ t.length < INT_SIZE) ∧
   lenSum g.tokens ≤ INT_SIZE ∧
   (∀ c q, ((g.map.getBits c).getD 0).testBit q = true ↔
     LaneChar g.tokens 0 q c) ∧
   (∀ q, g.gate.testBit q = true ↔ LaneGate g.tokens 0 q))

/-!
### Helper lemmas
-/

theorem testBit_add_mul_pow (e a b i : ℕ) (ha : a < 2 ^ e) :
    (a + 2 ^ e * b).testBit i = if i < e then a.testBit i else b.testBit (i - e) := by
  split_ifs with h
  · have hm : (a + 2 ^ e * b) % 2 ^ e = a := by
      rw [Nat.add_mul_mod_self_left, Nat.mod_eq_of_lt ha]
    have := Nat.testBit_mod_two_pow (a + 2 ^ e * b) e i
    rw [hm] at this
    simp [this, h]
  · have hd : (a + 2 ^ e * b) / 2 ^ e = b := by
      rw [Nat.add_mul_div_left _ _ (Nat.pos_pow_of_pos e (by omega)),
        Nat.div_eq_of_lt ha]
      omega
    have h2 : (a + 2 ^ e * b).testBit (e + (i - e)) =
        ((a + 2 ^ e * b) >>> e).testBit (i - e) := by
      rw [Nat.testBit_shiftRight]
    rw [show e + (i - e) = i by omega] at h2
    rw [h2, Nat.shiftRight_eq_div_pow, hd]

theorem land_split (e y m r : ℕ) (hr : r < 2 ^ e) :
    y &&& (2 ^ e * m + r) = (y % 2 ^ e &&& r) + 2 ^ e * (y / 2 ^ e &&& m) := by
  apply Nat.eq_of_testBit_eq
  intro i
  have h1 : (y % 2 ^ e &&& r) < 2 ^ e := lt_of_le_of_lt Nat.and_le_right hr
  rw [testBit_add_mul_pow e _ _ i h1, Nat.testBit_land]
  have hmr : (2 ^ e * m + r) = (r + 2 ^ e * m) := by omega
  rw [hmr, testBit_add_mul_pow e r m i hr]
  split_ifs with h
  · rw [Nat.testBit_land, Nat.testBit_mod_two_pow]
    simp [h]
  · rw [Nat.testBit_land]
    have : y / 2 ^ e = y >>> e := (Nat.shiftRight_eq_div_pow y e).symm
    rw [this, Nat.testBit_shiftRight, show e + (i - e) = i by omega]

theorem popc_eq (n : ℕ) : popc n = popc (n / 2) + n % 2 := by
  cases n with
  | zero => simp [popc]
  | succ m => rw [popc]

theorem popc_add_mul_pow (e a b : ℕ) (ha : a < 2 ^ e) :
    popc (a + 2 ^ e * b) = popc a + popc b := by
  induction e generalizing a b with
  | zero =>
      have : a = 0 := by omega
      subst this
      simp [popc]
  | succ e ih =>
      rw [popc_eq (a + 2 ^ (e + 1) * b)]
      have hb : 2 ^ (e + 1) * b = 2 * (2 ^ e * b) := by ring
      have h1 : (a + 2 ^ (e + 1) * b) / 2 = a / 2 + 2 ^ e * b := by
        rw [hb]
        omega
      have h2 : (a + 2 ^ (e + 1) * b) % 2 = a % 2 := by
        rw [hb]
        omega
      rw [h1, h2, ih (a / 2) b (by rw [pow_succ] at ha; omega), popc_eq a]
      omega

theorem st1 : ∀ k x, x < 4 ^ k → x - (x / 2 &&& m55 k) = pcDigits4 x := by
  intro k
  induction k with
  | zero =>
      intro x hx
      have : x = 0 := by simpa using hx
      subst this
      simp [pcDigits4]
  | succ k ih =>
      intro x hx
      by_cases hx0 : x = 0
      · subst hx0
        simp [pcDigits4]
      set a := x % 4 with ha
      set b := x / 4 with hb
      have hxab : x = a + 4 * b := by omega
      have ha4 : a < 4 := by omega
      have hbk : b < 4 ^ k := by
        have : (4 : ℕ) ^ (k + 1) = 4 * 4 ^ k := by ring
        omega
      have hdiv2 : x / 2 = a / 2 + 2 * b := by omega
      have hm : m55 (k + 1) = 2 ^ 2 * m55 k + 1 := by
        rw [m55]
        ring
      rw [hm, land_split 2 (x / 2) (m55 k) 1 (by norm_num)]
      have e1 : x / 2 % 2 ^ 2 &&& 1 = a / 2 := by
        rw [Nat.and_one_is_mod]
        omega
      have e2 : x / 2 / 2 ^ 2 = b / 2 := by omega
      rw [e1, e2]
      have hu : b / 2 &&& m55 k ≤ b / 2 := Nat.and_le_left
      have hIH := ih b hbk
      rw [pcDigits4, if_neg hx0, ← ha, ← hb]
      have : (2 : ℕ) ^ 2 = 4 := by norm_num
      rw [this]
      omega

theorem pcDigits4_le (x : ℕ) : pcDigits4 x ≤ x := by
  induction x using Nat.strong_induction_on with
  | _ x ih =>
      by_cases hx0 : x = 0
      · subst hx0
        simp [pcDigits4]
      rw [pcDigits4, if_neg hx0]
      have h4 : x / 4 < x := Nat.div_lt_self (by omega) (by omega)
      have := ih (x / 4) h4
      omega

theorem digits4Le2_pcDigits4 : ∀ i x, pcDigits4 x / 4 ^ i % 4 ≤ 2 := by
  intro i
  induction i with
  | zero =>
      intro x
      by_cases hx0 : x = 0
      · subst hx0
        simp [pcDigits4]
      rw [pcDigits4, if_neg hx0]
      simp only [pow_zero, Nat.div_one]
      omega
  | succ i ih =>
      intro x
      have hstep : pcDigits4 x / 4 = pcDigits4 (x / 4) := by
        by_cases hx0 : x = 0
        · subst hx0
          simp [pcDigits4]
        rw [pcDigits4, if_neg hx0]
        omega
      have : pcDigits4 x / 4 ^ (i + 1) = pcDigits4 (x / 4) / 4 ^ i := by
        rw [pow_succ, mul_comm (4 ^ i) 4, ← Nat.div_div_eq_div_mul, hstep]
      rw [this]
      exact ih (x / 4)

theorem div_pow_add (c x i j : ℕ) : x / c ^ i / c ^ j = x / c ^ (i + j) := by
  rw [Nat.div_div_eq_div_mul, pow_add]

theorem st2 : ∀ k y, y < 16 ^ k → Digits4Le2 y →
    (y &&& m33 k) + (y / 4 &&& m33 k) = sumPairs4 y := by
  intro k
  induction k with
  | zero =>
      intro y hy _
      have : y = 0 := by simpa using hy
      subst this
      simp [sumPairs4]
  | succ k ih =>
      intro y hy hD
      by_cases hy0 : y = 0
      · subst hy0
        simp [sumPairs4]
      set a := y % 16 with ha
      set b := y / 16 with hb
      have hyab : y = a + 16 * b := by omega
      have ha16 : a < 16 := by omega
      have hd0 : a % 4 ≤ 2 := by
        have := hD 0
        simp only [pow_zero, Nat.div_one] at this
        omega
      have hd1 : a / 4 ≤ 2 := by
        have := hD 1
        simp only [pow_one] at this
        omega
      have hbk : b < 16 ^ k := by
        have : (16 : ℕ) ^ (k + 1) = 16 * 16 ^ k := by ring
        omega
      have hbD : Digits4Le2 b := by
        intro i
        have h1 : b / 4 ^ i = y / 4 ^ (2 + i) := by
          rw [hb, show (16 : ℕ) = 4 ^ 2 by norm_num, div_pow_add]
        rw [h1]
        exact hD (2 + i)
      have hm : m33 (k + 1) = 2 ^ 4 * m33 k + 3 := by
        rw [m33]
        ring
      have hand3 : ∀ t : ℕ, t &&& 3 = t % 4 := by
        intro t
        have := Nat.and_pow_two_sub_one_eq_mod t 2
        norm_num at this
        exact this
      rw [hm, land_split 4 y (m33 k) 3 (by norm_num),
        land_split 4 (y / 4) (m33 k) 3 (by norm_num)]
      have e1 : y % 2 ^ 4 &&& 3 = a % 4 := by
        rw [hand3]
        omega
      have e2 : y / 2 ^ 4 = b := by
        rw [hb]
        norm_num
      have hdiv4 : y / 4 = a / 4 + 4 * b := by omega
      have e3 : y / 4 % 2 ^ 4 &&& 3 = a / 4 := by
        rw [hand3]
        omega
      have e4 : y / 4 / 2 ^ 4 = b / 4 := by omega
      rw [e1, e2, e3, e4]
      have hIH := ih b hbk hbD
      rw [sumPairs4, if_neg hy0, ← ha, ← hb]
      omega

theorem sumPairs4_le (y : ℕ) : sumPairs4 y ≤ y := by
  induction y using Nat.strong_induction_on with
  | _ y ih =>
      by_cases hy0 : y = 0
      · subst hy0
        simp [sumPairs4]
      rw [sumPairs4, if_neg hy0]
      have h16 : y / 16 < y := Nat.div_lt_self (by omega) (by omega)
      have := ih (y / 16) h16
      omega

theorem digits16Le4_sumPairs4 : ∀ i y, Digits4Le2 y →
    sumPairs4 y / 16 ^ i % 16 ≤ 4 := by
  intro i
  induction i with
  | zero =>
      intro y hD
      by_cases hy0 : y = 0
      · subst hy0
        simp [sumPairs4]
      rw [sumPairs4, if_neg hy0]
      simp only [pow_zero, Nat.div_one]
      have hd0 : y % 16 % 4 ≤ 2 := by
        have := hD 0
        simp only [pow_zero, Nat.div_one] at this
        omega
      have hd1 : y % 16 / 4 ≤ 2 := by
        have := hD 1
        simp only [pow_one] at this
        omega
      rw [Nat.add_mul_mod_self_left, Nat.mod_eq_of_lt (by omega)]
      omega
  | succ i ih =>
      intro y hD
      have hstep : sumPairs4 y / 16 = sumPairs4 (y / 16) := by
        by_cases hy0 : y = 0
        · subst hy0
          simp [sumPairs4]
        rw [sumPairs4, if_neg hy0]
        have hd0 : y % 16 % 4 ≤ 2 := by
          have := hD 0
          simp only [pow_zero, Nat.div_one] at this
          omega
        have hd1 : y % 16 / 4 ≤ 2 := by
          have := hD 1
          simp only [pow_one] at this
          omega
        rw [Nat.add_mul_div_left _ _ (by norm_num : (0 : ℕ) < 16),
          Nat.div_eq_of_lt (by omega)]
        omega
      have h1 : sumPairs4 y / 16 ^ (i + 1) = sumPairs4 (y / 16) / 16 ^ i := by
        rw [pow_succ, mul_comm (16 ^ i) 16, ← Nat.div_div_eq_div_mul, hstep]
      rw [h1]
      apply ih
      intro j
      have h2 : y / 16 / 4 ^ j = y / 4 ^ (2 + j) := by
        rw [show (16 : ℕ) = 4 ^ 2 by norm_num, div_pow_add]
      rw [h2]
      exact hD (2 + j)

theorem st3 : ∀ k z, z < 256 ^ k → Digits16Le4 z →
    (z + z / 16) &&& m0F k = sumPairs16 z := by
  intro k
  induction k with
  | zero =>
      intro z hz _
      have : z = 0 := by simpa using hz
      subst this
      simp [sumPairs16]
  | succ k ih =>
      intro z hz hD
      by_cases hz0 : z = 0
      · subst hz0
        simp [sumPairs16]
      set a := z % 256 with ha
      set b := z / 256 with hb
      have hzab : z = a + 256 * b := by omega
      have ha256 : a < 256 := by omega
      have hn0 : a % 16 ≤ 4 := by
        have := hD 0
        simp only [pow_zero, Nat.div_one] at this
        omega
      have hn1 : a / 16 ≤ 4 := by
        have := hD 1
        simp only [pow_one] at this
        omega
      have hn2 : b % 16 ≤ 4 := by
        have := hD 2
        have h2 : z / 16 ^ 2 = b := by
          rw [hb]
          norm_num
        rw [h2] at this
        exact this
      have hbk : b < 256 ^ k := by
        have : (256 : ℕ) ^ (k + 1) = 256 * 256 ^ k := by ring
        omega
      have hbD : Digits16Le4 b := by
        intro i
        have h1 : b / 16 ^ i = z / 16 ^ (2 + i) := by
          rw [hb, show (256 : ℕ) = 16 ^ 2 by norm_num, div_pow_add]
        rw [h1]
        exact hD (2 + i)
      have hm : m0F (k + 1) = 2 ^ 8 * m0F k + 15 := by
        rw [m0F]
        ring
      have hsum : z + z / 16 =
          (a % 16 + a / 16 + 16 * (a / 16 + b % 16)) + 256 * (b + b / 16) := by
        omega
      rw [hm, hsum, land_split 8 _ (m0F k) 15 (by norm_num)]
      have hlow : a % 16 + a / 16 + 16 * (a / 16 + b % 16) < 2 ^ 8 := by
        norm_num
        omega
      have e1 : (a % 16 + a / 16 + 16 * (a / 16 + b % 16) + 256 * (b + b / 16))
          % 2 ^ 8 = a % 16 + a / 16 + 16 * (a / 16 + b % 16) := by
        norm_num at hlow ⊢
        omega
      have e2 : (a % 16 + a / 16 + 16 * (a / 16 + b % 16) + 256 * (b + b / 16))
          / 2 ^ 8 = b + b / 16 := by
        norm_num at hlow ⊢
        omega
      rw [e1, e2]
      have hand15 : ∀ t : ℕ, t &&& 15 = t % 16 := by
        intro t
        have := Nat.and_pow_two_sub_one_eq_mod t 4
        norm_num at this
        exact this
      have e3 : (a % 16 + a / 16 + 16 * (a / 16 + b % 16)) &&& 15 =
          a % 16 + a / 16 := by
        rw [hand15]
        omega
      rw [e3, ih b hbk hbD]
      conv_rhs => rw [sumPairs16, if_neg hz0]
      rw [← ha, ← hb]
      norm_num

theorem sumPairs16_le (z : ℕ) : sumPairs16 z ≤ z := by
  induction z using Nat.strong_induction_on with
  | _ z ih =>
      by_cases hz0 : z = 0
      · subst hz0
        simp [sumPairs16]
      rw [sumPairs16, if_neg hz0]
      have h256 : z / 256 < z := Nat.div_lt_self (by omega) (by omega)
      have := ih (z / 256) h256
      omega

theorem digits256Le8_sumPairs16 : ∀ i z, Digits16Le4 z →
    sumPairs16 z / 256 ^ i % 256 ≤ 8 := by
  intro i
  induction i with
  | zero =>
      intro z hD
      by_cases hz0 : z = 0
      · subst hz0
        simp [sumPairs16]
      rw [sumPairs16, if_neg hz0]
      simp only [pow_zero, Nat.div_one]
      have hn0 : z % 256 % 16 ≤ 4 := by
        have := hD 0
        simp only [pow_zero, Nat.div_one] at this
        omega
      have hn1 : z % 256 / 16 ≤ 4 := by
        have := hD 1
        simp only [pow_one] at this
        omega
      rw [Nat.add_mul_mod_self_left, Nat.mod_eq_of_lt (by omega)]
      omega
  | succ i ih =>
      intro z hD
      have hn0 : z % 256 % 16 ≤ 4 := by
        have := hD 0
        simp only [pow_zero, Nat.div_one] at this
        omega
      have hn1 : z % 256 / 16 ≤ 4 := by
        have := hD 1
        simp only [pow_one] at this
        omega
      have hstep : sumPairs16 z / 256 = sumPairs16 (z / 256) := by
        by_cases hz0 : z = 0
        · subst hz0
          simp [sumPairs16]
        rw [sumPairs16, if_neg hz0]
        rw [Nat.add_mul_div_left _ _ (by norm_num : (0 : ℕ) < 256),
          Nat.div_eq_of_lt (by omega)]
        omega
      have h1 : sumPairs16 z / 256 ^ (i + 1) = sumPairs16 (z / 256) / 256 ^ i := by
        rw [pow_succ, mul_comm (256 ^ i) 256, ← Nat.div_div_eq_div_mul, hstep]
      rw [h1]
      apply ih
      intro j
      have h2 : z / 256 / 16 ^ j = z / 16 ^ (2 + j) := by
        rw [show (256 : ℕ) = 16 ^ 2 by norm_num, div_pow_add]
      rw [h2]
      exact hD (2 + j)

theorem st4 (w : ℕ) (hw : w < 256 ^ 4) (hD : Digits256Le8 w) :
    (w * 0x01010101 % 2 ^ 32) >>> 24 =
      w % 256 + w / 256 % 256 + w / 65536 % 256 + w / 16777216 := by
  have hb0 : w % 256 ≤ 8 := by
    have := hD 0
    simp only [pow_zero, Nat.div_one] at this
    omega
  have hb1 : w / 256 % 256 ≤ 8 := by
    have := hD 1
    simp only [pow_one] at this
    exact this
  have hb2 : w / 65536 % 256 ≤ 8 := by
    have := hD 2
    norm_num at this
    exact this
  have hb3 : w / 16777216 ≤ 8 := by
    have := hD 3
    norm_num at this
    have hlt : w / 16777216 < 256 := by
      norm_num at hw
      omega
    omega
  set b0 := w % 256 with hB0
  set b1 := w / 256 % 256 with hB1
  set b2 := w / 65536 % 256 with hB2
  set b3 := w / 16777216 with hB3
  have hw' : w = b0 + 256 * b1 + 65536 * b2 + 16777216 * b3 := by
    rw [hB0, hB1, hB2, hB3]
    omega
  have hP : w * 0x01010101 =
      (b0 + 256 * (b0 + b1) + 65536 * (b0 + b1 + b2) +
        16777216 * (b0 + b1 + b2 + b3)) +
      4294967296 * ((b1 + b2 + b3) + 256 * (b2 + b3) + 65536 * b3) := by
    rw [hw']
    ring
  have hlow : b0 + 256 * (b0 + b1) + 65536 * (b0 + b1 + b2) +
      16777216 * (b0 + b1 + b2 + b3) < 4294967296 := by omega
  rw [Nat.shiftRight_eq_div_pow, hP]
  have h32 : (2 : ℕ) ^ 32 = 4294967296 := by norm_num
  have h24 : (2 : ℕ) ^ 24 = 16777216 := by norm_num
  rw [h32, h24, Nat.add_mul_mod_self_left, Nat.mod_eq_of_lt hlow,
    Nat.add_mul_div_left _ _ (by norm_num : (0 : ℕ) < 16777216),
    Nat.div_eq_of_lt (by omega : b0 + 256 * (b0 + b1) +
      65536 * (b0 + b1 + b2) < 16777216)]
  omega

theorem dsum4_step (t : ℕ) : dsum4 t = t % 4 + dsum4 (t / 4) := by
  by_cases ht : t = 0
  · subst ht
    simp [dsum4]
  · rw [dsum4, if_neg ht]

theorem dsum16_step (t : ℕ) : dsum16 t = t % 16 + dsum16 (t / 16) := by
  by_cases ht : t = 0
  · subst ht
    simp [dsum16]
  · rw [dsum16, if_neg ht]

theorem dsum256_step (t : ℕ) : dsum256 t = t % 256 + dsum256 (t / 256) := by
  by_cases ht : t = 0
  · subst ht
    simp [dsum256]
  · rw [dsum256, if_neg ht]

theorem popc_zero : popc 0 = 0 := by
  simp only [popc]

theorem pcDigits4_zero : pcDigits4 0 = 0 := by
  rw [pcDigits4]
  simp

theorem sumPairs4_zero : sumPairs4 0 = 0 := by
  rw [sumPairs4]
  simp

theorem sumPairs16_zero : sumPairs16 0 = 0 := by
  rw [sumPairs16]
  simp

theorem dsum4_zero : dsum4 0 = 0 := by
  rw [dsum4]
  simp

theorem dsum16_zero : dsum16 0 = 0 := by
  rw [dsum16]
  simp

theorem dsum256_zero : dsum256 0 = 0 := by
  rw [dsum256]
  simp

theorem popc_lt_four : ∀ t, t < 4 → popc t = t - t / 2 := by
  intro t ht
  interval_cases t <;> simp [popc_eq 3, popc_eq 2, popc_eq 1, popc_zero]

theorem popc_eq_dsum4_pcDigits4 (x : ℕ) : popc x = dsum4 (pcDigits4 x) := by
  induction x using Nat.strong_induction_on with
  | _ x ih =>
      by_cases hx0 : x = 0
      · subst hx0
        rw [popc_zero, pcDigits4_zero, dsum4_zero]
      have hx : x = x % 4 + 2 ^ 2 * (x / 4) := by omega
      have hsplit : popc x = popc (x % 4) + popc (x / 4) := by
        conv_lhs => rw [hx]
        exact popc_add_mul_pow 2 (x % 4) (x / 4) (by omega)
      rw [hsplit, popc_lt_four (x % 4) (by omega),
        ih (x / 4) (Nat.div_lt_self (by omega) (by omega))]
      conv_rhs => rw [pcDigits4, if_neg hx0]
      rw [dsum4_step (x % 4 - x % 4 / 2 + 4 * pcDigits4 (x / 4))]
      have hc : x % 4 - x % 4 / 2 < 4 := by omega
      rw [Nat.add_mul_mod_self_left, Nat.mod_eq_of_lt hc,
        Nat.add_mul_div_left _ _ (by norm_num : (0 : ℕ) < 4),
        Nat.div_eq_of_lt hc, Nat.zero_add]

theorem dsum16_sumPairs4 (y : ℕ) (hD : Digits4Le2 y) :
    dsum16 (sumPairs4 y) = dsum4 y := by
  induction y using Nat.strong_induction_on with
  | _ y ih =>
      by_cases hy0 : y = 0
      · subst hy0
        rw [sumPairs4_zero, dsum16_zero, dsum4_zero]
      have hd0 : y % 16 % 4 ≤ 2 := by
        have := hD 0
        simp only [pow_zero, Nat.div_one] at this
        omega
      have hd1 : y % 16 / 4 ≤ 2 := by
        have := hD 1
        simp only [pow_one] at this
        omega
      have hc : y % 16 % 4 + y % 16 / 4 < 16 := by omega
      rw [sumPairs4, if_neg hy0, dsum16_step, Nat.add_mul_mod_self_left,
        Nat.mod_eq_of_lt hc,
        Nat.add_mul_div_left _ _ (by norm_num : (0 : ℕ) < 16),
        Nat.div_eq_of_lt hc, Nat.zero_add]
      have hbD : Digits4Le2 (y / 16) := by
        intro i
        have h2 : y / 16 / 4 ^ i = y / 4 ^ (2 + i) := by
          rw [show (16 : ℕ) = 4 ^ 2 by norm_num, div_pow_add]
        rw [h2]
        exact hD (2 + i)
      rw [ih (y / 16) (Nat.div_lt_self (by omega) (by omega)) hbD]
      rw [dsum4_step y, dsum4_step (y / 4)]
      have e3 : y / 4 / 4 = y / 16 := by omega
      rw [e3]
      omega

theorem dsum256_sumPairs16 (z : ℕ) (hD : Digits16Le4 z) :
    dsum256 (sumPairs16 z) = dsum16 z := by
  induction z using Nat.strong_induction_on with
  | _ z ih =>
      by_cases hz0 : z = 0
      · subst hz0
        rw [sumPairs16_zero, dsum256_zero, dsum16_zero]
      have hd0 : z % 256 % 16 ≤ 4 := by
        have := hD 0
        simp only [pow_zero, Nat.div_one] at this
        omega
      have hd1 : z % 256 / 16 ≤ 4 := by
        have := hD 1
        simp only [pow_one] at this
        omega
      have hc : z % 256 % 16 + z % 256 / 16 < 256 := by omega
      rw [sumPairs16, if_neg hz0, dsum256_step, Nat.add_mul_mod_self_left,
        Nat.mod_eq_of_lt hc,
        Nat.add_mul_div_left _ _ (by norm_num : (0 : ℕ) < 256),
        Nat.div_eq_of_lt hc, Nat.zero_add]
      have hbD : Digits16Le4 (z / 256) := by
        intro i
        have h2 : z / 256 / 16 ^ i = z / 16 ^ (2 + i) := by
          rw [show (256 : ℕ) = 16 ^ 2 by norm_num, div_pow_add]
        rw [h2]
        exact hD (2 + i)
      rw [ih (z / 256) (Nat.div_lt_self (by omega) (by omega)) hbD]
      rw [dsum16_step z, dsum16_step (z / 16)]
      have e3 : z / 16 / 16 = z / 256 := by omega
      rw [e3]
      omega

theorem dsum256_lt_2_32 (w : ℕ) (hw : w < 2 ^ 32) :
    dsum256 w = w % 256 + w / 256 % 256 + w / 65536 % 256 + w / 16777216 := by
  rw [dsum256_step w, dsum256_step (w / 256), dsum256_step (w / 256 / 256),
    dsum256_step (w / 256 / 256 / 256)]
  have e2 : w / 256 / 256 = w / 65536 := by omega
  have e3 : w / 65536 / 256 = w / 16777216 := by omega
  have e4 : w / 16777216 / 256 = 0 := by
    norm_num at hw
    omega
  rw [e2, e3, e4]
  rw [dsum256_zero]
  have e5 : w / 16777216 % 256 = w / 16777216 := by
    norm_num at hw
    omega
  omega

theorem swar32_eq_popc (x : ℕ) (hx : x < 2 ^ 32) : swar32 x = popc x := by
  have h55 : (0x55555555 : ℕ) = m55 16 := by decide
  have h33 : (0x33333333 : ℕ) = m33 8 := by decide
  have h0F : (0x0F0F0F0F : ℕ) = m0F 4 := by decide
  have hS1 : x - (x >>> 1 &&& 0x55555555) = pcDigits4 x := by
    rw [Nat.shiftRight_eq_div_pow, pow_one, h55]
    exact st1 16 x (by norm_num at hx ⊢; exact hx)
  have hP4 : pcDigits4 x < 2 ^ 32 := lt_of_le_of_lt (pcDigits4_le x) hx
  have hS2 : (pcDigits4 x &&& 0x33333333) +
      ((pcDigits4 x >>> 2) &&& 0x33333333) = sumPairs4 (pcDigits4 x) := by
    rw [Nat.shiftRight_eq_div_pow, h33, show (2 : ℕ) ^ 2 = 4 by norm_num]
    exact st2 8 (pcDigits4 x) (by norm_num at hP4 ⊢; exact hP4)
      (fun i => digits4Le2_pcDigits4 i x)
  have hQ4 : sumPairs4 (pcDigits4 x) < 2 ^ 32 :=
    lt_of_le_of_lt (sumPairs4_le _) hP4
  have hS3 : (sumPairs4 (pcDigits4 x) + sumPairs4 (pcDigits4 x) >>> 4) &&&
      0x0F0F0F0F = sumPairs16 (sumPairs4 (pcDigits4 x)) := by
    rw [Nat.shiftRight_eq_div_pow, h0F, show (2 : ℕ) ^ 4 = 16 by norm_num]
    exact st3 4 _ (by norm_num at hQ4 ⊢; exact hQ4)
      (fun i => digits16Le4_sumPairs4 i _ (fun j => digits4Le2_pcDigits4 j x))
  have hR4 : sumPairs16 (sumPairs4 (pcDigits4 x)) < 2 ^ 32 :=
    lt_of_le_of_lt (sumPairs16_le _) hQ4
  have hS4 : (sumPairs16 (sumPairs4 (pcDigits4 x)) * 0x01010101 % 2 ^ 32) >>> 24
      = dsum256 (sumPairs16 (sumPairs4 (pcDigits4 x))) := by
    rw [st4 _ (by norm_num at hR4 ⊢; exact hR4)
      (fun i => digits256Le8_sumPairs16 i _
        (fun j => digits16Le4_sumPairs4 j _ (fun l => digits4Le2_pcDigits4 l x))),
      dsum256_lt_2_32 _ hR4]
  simp only [swar32]
  rw [hS1, hS2, hS3, hS4, dsum256_sumPairs16 _
      (fun i => digits16Le4_sumPairs4 i _ (fun j => digits4Le2_pcDigits4 j x)),
    dsum16_sumPairs4 _ (fun i => digits4Le2_pcDigits4 i x),
    popc_eq_dsum4_pcDigits4]

theorem land_div_two (a b : ℕ) : (a &&& b) / 2 = a / 2 &&& b / 2 := by
  apply Nat.eq_of_testBit_eq
  intro i
  rw [Nat.testBit_div_two, Nat.testBit_land, Nat.testBit_land,
    Nat.testBit_div_two, Nat.testBit_div_two]

theorem popc_land_le_right (a b : ℕ) : popc (a &&& b) ≤ popc b := by
  induction b using Nat.strong_induction_on generalizing a with
  | _ b ih =>
      by_cases hb0 : b = 0
      · subst hb0
        simp only [Nat.and_zero, popc_zero]
        omega
      have hmod : (a &&& b) % 2 ≤ b % 2 := by
        rw [← Nat.and_one_is_mod, ← Nat.and_one_is_mod, Nat.and_assoc]
        exact Nat.and_le_right
      calc popc (a &&& b) = popc ((a &&& b) / 2) + (a &&& b) % 2 := popc_eq _
    _ = popc (a / 2 &&& b / 2) + (a &&& b) % 2 := by rw [land_div_two]
    _ ≤ popc (b / 2) + b % 2 := by
        have := ih (b / 2) (Nat.div_lt_self (by omega) (by omega)) (a / 2)
        omega
    _ = popc b := (popc_eq b).symm

theorem popc_two_pow_sub_one : ∀ k, popc (2 ^ k - 1) = k := by
  intro k
  induction k with
  | zero => simpa using popc_zero
  | succ k ih =>
      have h1 : (2 ^ (k + 1) - 1) / 2 = 2 ^ k - 1 := by
        have : (2 : ℕ) ^ (k + 1) = 2 * 2 ^ k := by ring
        have h2 : (1 : ℕ) ≤ 2 ^ k := Nat.one_le_two_pow
        omega
      have h2 : (2 ^ (k + 1) - 1) % 2 = 1 := by
        have : (2 : ℕ) ^ (k + 1) = 2 * 2 ^ k := by ring
        have h2 : (1 : ℕ) ≤ 2 ^ k := Nat.one_le_two_pow
        omega
      rw [popc_eq, h1, h2, ih]

theorem popc_mul_two_pow (p b : ℕ) : popc (2 ^ p * b) = popc b := by
  have := popc_add_mul_pow p 0 b (Nat.pos_pow_of_pos p (by omega))
  simpa [popc_zero] using this

theorem testBit_shiftLeft' (x i j : ℕ) :
    (2 ^ i * x).testBit j = (j ≥ i && x.testBit (j - i)) := by
  have h : 2 ^ i * x = x <<< i := by
    rw [Nat.shiftLeft_eq, mul_comm]
  rw [h, Nat.testBit_shiftLeft]

theorem mask2_eq (m p : ℕ) (hp : p ≤ m) (hm : m ≤ 32) :
    ((1 <<< m) - 1) &&& (((1 <<< p) - 1) ^^^ 0xFFFFFFFF) = 2 ^ m - 2 ^ p := by
  have hsm : (1 : ℕ) <<< m = 2 ^ m := by
    rw [Nat.shiftLeft_eq, one_mul]
  have hsp : (1 : ℕ) <<< p = 2 ^ p := by
    rw [Nat.shiftLeft_eq, one_mul]
  have hff : (0xFFFFFFFF : ℕ) = 2 ^ 32 - 1 := by norm_num
  have hrhs : (2 : ℕ) ^ m - 2 ^ p = 2 ^ p * (2 ^ (m - p) - 1) := by
    have hpow : (2 : ℕ) ^ m = 2 ^ p * 2 ^ (m - p) := by
      rw [← pow_add]
      congr 1
      omega
    rw [hpow, Nat.mul_sub, mul_one]
  rw [hsm, hsp, hff, hrhs]
  apply Nat.eq_of_testBit_eq
  intro i
  rw [Nat.testBit_land, Nat.testBit_xor, Nat.testBit_two_pow_sub_one,
    Nat.testBit_two_pow_sub_one, Nat.testBit_two_pow_sub_one,
    testBit_shiftLeft', Nat.testBit_two_pow_sub_one]
  rw [Bool.eq_iff_iff]
  simp only [Bool.and_eq_true, bne_iff_ne, ne_eq, decide_eq_decide,
    decide_eq_true_eq, ge_iff_le]
  omega

theorem popc_mask2 (m p : ℕ) (hp : p ≤ m) : popc (2 ^ m - 2 ^ p) = m - p := by
  have hrw : (2 : ℕ) ^ m - 2 ^ p = 2 ^ p * (2 ^ (m - p) - 1) := by
    have hpow : (2 : ℕ) ^ m = 2 ^ p * 2 ^ (m - p) := by
      rw [← pow_add]
      congr 1
      omega
    rw [hpow, Nat.mul_sub, mul_one]
  rw [hrw, popc_mul_two_pow, popc_two_pow_sub_one]

theorem llcs_bitvec_le (a b : Str) (mp : BitMap) (p : ℕ)
    (hpm : p ≤ a.length) (hm : a.length ≤ 32) :
    llcs_bitvec a b mp p ≤ a.length := by
  simp only [llcs_bitvec]
  set m := a.length with hmm
  set Sf := (b.drop p).foldl (sweepStep mp) ((1 <<< m) - 1) with hSf
  set X := (Sf ^^^ 0xFFFFFFFF) &&& (((1 <<< m) - 1) &&&
    (((1 <<< p) - 1) ^^^ 0xFFFFFFFF)) with hX
  have hmask : ((1 <<< m) - 1) &&& (((1 <<< p) - 1) ^^^ 0xFFFFFFFF) =
      2 ^ m - 2 ^ p := mask2_eq m p hpm hm
  have hXle : X ≤ 2 ^ m - 2 ^ p := by
    rw [hX, hmask]
    exact Nat.and_le_right
  have hX32 : X < 2 ^ 32 := by
    have h1 : (2 : ℕ) ^ m ≤ 2 ^ 32 := Nat.pow_le_pow_right (by omega) hm
    have h2 : (0 : ℕ) < 2 ^ p := Nat.pos_pow_of_pos p (by omega)
    omega
  have hpc : swar32 X = popc X := swar32_eq_popc X hX32
  have hb : popc X ≤ popc (2 ^ m - 2 ^ p) := by
    rw [hX, hmask]
    exact popc_land_le_right _ _
  rw [popc_mask2 m p hpm] at hb
  have h2 : (0 : ℕ) < 2 ^ p := Nat.pos_pow_of_pos p (by omega)
  have h3 : (2 : ℕ) ^ p ≤ 2 ^ m := Nat.pow_le_pow_right (by omega) hpm
  omega

theorem commonPfx_le_left : ∀ (a b : Str), commonPfx a b ≤ a.length := by
  intro a
  induction a with
  | nil => intro b; cases b <;> simp [commonPfx]
  | cons x xs ih =>
      intro b
      cases b with
      | nil => simp [commonPfx]
      | cons y ys =>
          by_cases h : x = y
          · simp only [commonPfx, if_pos h, List.length_cons]
            have := ih ys
            omega
          · simp [commonPfx, h]

theorem commonPfx_lt_of_ne : ∀ (a b : Str), a.length = b.length → a ≠ b →
    commonPfx a b < a.length := by
  intro a
  induction a with
  | nil =>
      intro b hlen hne
      cases b with
      | nil => exact absurd rfl hne
      | cons y ys => simp at hlen
  | cons x xs ih =>
      intro b hlen hne
      cases b with
      | nil => simp at hlen
      | cons y ys =>
          by_cases h : x = y
          · subst h
            have hxs : xs ≠ ys := by
              intro he
              exact hne (by rw [he])
            have hih := ih ys (by simpa using hlen) hxs
            have hstep : commonPfx (x :: xs) (x :: ys) = commonPfx xs ys + 1 := by
              simp [commonPfx]
            rw [hstep, List.length_cons]
            omega
          · simp [commonPfx, h]

theorem score_self_gt_score_other (a b : Str) (h1 : 1 ≤ a.length)
    (h2 : a.length ≤ 31) (h3 : b.length = a.length) (h4 : a ≠ b) :
    score defaultOptions a b < score defaultOptions a a := by
  set m := a.length with hmdef
  have hmq : (1 : ℚ) ≤ (m : ℚ) := by exact_mod_cast h1
  have hgate : ¬(m = 0 ∨ (m : ℚ) < (3/5 : ℚ) * m ∨ (m : ℚ) > (6 : ℚ) * m) := by
    push_neg
    refine ⟨by omega, by linarith, by linarith⟩
  set p := commonPfx a b with hpdef
  have hplt : p < m := commonPfx_lt_of_ne a b h3.symm h4
  set l := llcs_bitvec a b (alphabet a).getBits p with hldef
  have hll : l ≤ m := llcs_bitvec_le a b (alphabet a).getBits p (by omega) (by omega)
  have hself : score defaultOptions a a =
      (((m : ℚ) + m) / (2 * m * m)) * m * m + (1/2 : ℚ) * m := by
    simp only [score, score_map, defaultOptions, min_self, eq_self_iff_true,
      if_true, ← hmdef]
    rw [if_neg hgate]
  have hother : score defaultOptions a b =
      (((m : ℚ) + m) / (2 * m * m)) * l * l + (1/2 : ℚ) * p := by
    simp only [score, score_map, defaultOptions, ← hmdef, h3, min_self]
    rw [if_neg hgate, if_neg h4, ← hpdef, if_neg (by omega : ¬ p = m),
      if_neg (by simp only [INT_SIZE]; omega : ¬ m > INT_SIZE), ← hldef]
  rw [hself, hother]
  have hc : (0 : ℚ) < ((m : ℚ) + m) / (2 * m * m) := by positivity
  have hlq : (l : ℚ) ≤ (m : ℚ) := by exact_mod_cast hll
  have hpq : (p : ℚ) < (m : ℚ) := by exact_mod_cast hplt
  have hl0 : (0 : ℚ) ≤ (l : ℚ) := by positivity
  have h1q : (l : ℚ) * l ≤ (m : ℚ) * m := by nlinarith
  have hmono : (((m : ℚ) + m) / (2 * m * m)) * l * l ≤
      (((m : ℚ) + m) / (2 * m * m)) * m * m := by
    have := mul_le_mul_of_nonneg_left h1q hc.le
    nlinarith [this]
  linarith

/-!
## Claim theorems
-/

/-- Claim C1: the single-token scorer is claimed to return
`sz · llcs(a,b)² + bonus_match_start · p` whenever the rel-size gate passes,
with `llcs` the length of the longest common subsequence.  This fails on the
code: for `a = "ab"`, `b = "acba"` (gate passes, common prefix `p = 1`,
`llcs = 2`, `sz = 6/16`) the claimed value is `3/8·4 + 1/2·1 = 2`, but
`score_map` returns `7/8` (its prefix-skipping sweep misses the LCS
`"ab"` that reuses the prefix character of `b`). -/
theorem score_map_breaks_llcs_formula :
    commonPfx "ab".toList "acba".toList = 1 ∧
    llcsSpec "ab".toList "acba".toList = 2 ∧
    ((2 + 4 : ℚ) / (2 * 2 * 4)) * 2 * 2 + (1/2) * 1 = 2 ∧
    score_map "ab".toList "acba".toList (alphabet "ab".toList)
      defaultOptions = 7/8 ∧
    (7/8 : ℚ) ≠ 2 := by
  refine ⟨by decide, by simp [llcsSpec], by norm_num, ?_, by norm_num⟩
  have h : llcs_bitvec ['a', 'b'] ['a', 'c', 'b', 'a']
      (alphabet ['a', 'b']).getBits 1 = 1 := by decide
  simp only [score_map, defaultOptions]
  norm_num [commonPfx, INT_SIZE]
  all_goals simp
  all_goals norm_num [h]

/-- Claim C2: the short (bit-parallel) and long (`llcs_large`) LLCS paths
are claimed to agree whenever both are applicable.  They do not: on
`a = "ab"`, `b = "acba"` with their common prefix length `1`, the
bit-parallel path computes `1` while `llcs_large` computes `2` (which is the
true LLCS).  On the spec's own example `"surgery"` / `"gsurvey"` (common
prefix `0`) both do compute `5`. -/
theorem llcs_bitvec_disagrees_with_llcs_large :
    commonPfx "ab".toList "acba".toList = 1 ∧
    llcs_bitvec "ab".toList "acba".toList
      (alphabet "ab".toList).getBits 1 = 1 ∧
    llcs_large "ab".toList "acba".toList (posVector "ab".toList) 1 = 2 ∧
    llcs_bitvec "surgery".toList "gsurvey".toList
      (alphabet "surgery".toList).getBits 0 = 5 ∧
    llcs_large "surgery".toList "gsurvey".toList
      (posVector "surgery".toList) 0 = 5 := by
  refine ⟨by decide, by decide, by decide, by decide, by decide⟩

/-- Claim C3: the packed scorer is claimed to agree lane by lane with the
single-token scorer.  It does not: packing `["ab", "xy"]` (one group) and
scoring against the field token `"acba"` yields lane scores `[2, 0]`,
while `score_map` on `("ab", "acba")` in isolation returns `7/8`
(the packed sweep starts at the beginning of the field token, the single
scorer skips the common prefix and loses an LCS match). -/
theorem score_pack_disagrees_with_score_map :
    (pack_tokens ["ab".toList, "xy".toList]).map
        (fun g => score_pack g "acba".toList defaultOptions) = [[2, 0]] ∧
    score_map "ab".toList "acba".toList (alphabet "ab".toList)
        defaultOptions = 7/8 ∧
    score_map "xy".toList "acba".toList (alphabet "xy".toList)
        defaultOptions = 0 ∧
    ((2 : ℚ) ≠ 7/8) := by
  refine ⟨?_, ?_, ?_, by norm_num⟩
  · simp [pack_tokens, packGo, INT_SIZE, bitVector, bitVecGo, emptyBitMap,
      score_pack, packStep, packLanes, popLoop, popLoopGo, commonPfx,
      defaultOptions, AlphaMap.getBits]
    norm_num
  · have h : llcs_bitvec ['a', 'b'] ['a', 'c', 'b', 'a']
        (alphabet ['a', 'b']).getBits 1 = 1 := by decide
    simp only [score_map, defaultOptions]
    norm_num [commonPfx, INT_SIZE]
    all_goals simp
    all_goals norm_num [h]
  · have h : llcs_bitvec ['x', 'y'] ['a', 'c', 'b', 'a']
        (alphabet ['x', 'y']).getBits 0 = 0 := by decide
    simp only [score_map, defaultOptions]
    norm_num [commonPfx, INT_SIZE]
    all_goals simp
    all_goals norm_num [h]

/-- Claim C9: at the default options, the score of a token against itself
strictly exceeds its score against any distinct token of the same length
(`1 ≤ |a| ≤ 31`).  The self-score is `1.5·m` while the other score is at
most `m + (m-1)/2`: the bit-parallel LLCS value never exceeds `m` (by the
SWAR popcount bound) and the common prefix is strictly shorter than `m`. -/
theorem score_equality_beats_others (a b : Str) (h1 : 1 ≤ a.length)
    (h2 : a.length ≤ 31) (h3 : b.length = a.length) (h4 : a ≠ b) :
    score defaultOptions a a > score defaultOptions a b :=
  score_self_gt_score_other a b h1 h2 h3 h4

/-- Claim C9, witness: a concrete instance of the theorem. -/
theorem score_equality_beats_others_witness :
    score defaultOptions "abc".toList "abc".toList >
      score defaultOptions "abc".toList "abd".toList :=
  score_equality_beats_others "abc".toList "abd".toList (by decide) (by decide)
    (by decide) (by decide)

theorem lenSum_cons (t : Str) (rest : List Str) :
    lenSum (t :: rest) = t.length + lenSum rest := by
  simp [lenSum]

theorem lenSum_append (g1 g2 : List Str) :
    lenSum (g1 ++ g2) = lenSum g1 + lenSum g2 := by
  simp [lenSum]

theorem laneChar_append (g1 g2 : List Str) (off q : ℕ) (c : Char) :
    LaneChar (g1 ++ g2) off q c ↔
      LaneChar g1 off q c ∨ LaneChar g2 (off + lenSum g1) q c := by
  induction g1 generalizing off with
  | nil => simp [LaneChar, lenSum]
  | cons t rest ih =>
      rw [List.cons_append]
      show ((off ≤ q ∧ q < off + t.length ∧ t.get? (q - off) = some c) ∨
          LaneChar (rest ++ g2) (off + t.length) q c) ↔
        ((off ≤ q ∧ q < off + t.length ∧ t.get? (q - off) = some c) ∨
          LaneChar rest (off + t.length) q c) ∨
        LaneChar g2 (off + lenSum (t :: rest)) q c
      rw [ih (off + t.length), lenSum_cons, ← add_assoc]
      tauto

theorem laneGate_append (g1 g2 : List Str) (off q : ℕ) :
    LaneGate (g1 ++ g2) off q ↔
      LaneGate g1 off q ∨ LaneGate g2 (off + lenSum g1) q := by
  induction g1 generalizing off with
  | nil => simp [LaneGate, lenSum]
  | cons t rest ih =>
      rw [List.cons_append]
      show ((off ≤ q ∧ q + 1 < off + t.length) ∨
          LaneGate (rest ++ g2) (off + t.length) q) ↔
        ((off ≤ q ∧ q + 1 < off + t.length) ∨
          LaneGate rest (off + t.length) q) ∨
        LaneGate g2 (off + lenSum (t :: rest)) q
      rw [ih (off + t.length), lenSum_cons, ← add_assoc]
      tauto

theorem bitVecGo_spec : ∀ (t : Str) (b : ℕ) (mp : BitMap) (c : Char) (q : ℕ),
    ((bitVecGo t b mp c).getD 0).testBit q = true ↔
      (((mp c).getD 0).testBit q = true ∨
        ∃ j, ∃ _ : j < t.length, q = b + j ∧ t.get? j = some c) := by
  intro t
  induction t with
  | nil => simp [bitVecGo]
  | cons x rest ih =>
      intro b mp c q
      simp only [bitVecGo]
      rw [ih]
      by_cases hcx : c = x
      · subst hcx
        rw [if_pos rfl]
        simp only [Option.getD_some, Nat.testBit_lor]
        have h1 : ((1 : ℕ) <<< b).testBit q = decide (b = q) := by
          rw [Nat.shiftLeft_eq, one_mul, Nat.testBit_two_pow]
        rw [h1]
        constructor
        · rintro (h | h)
          · rcases Bool.or_eq_true_iff.mp h with h' | h'
            · exact Or.inl h'
            · refine Or.inr ⟨0, by simp, ?_, ?_⟩
              · simp only [decide_eq_true_eq] at h'
                omega
              · simp [List.get?]
          · obtain ⟨j, hj, hq, hc⟩ := h
            exact Or.inr ⟨j + 1, by simpa using hj, by omega, by simpa using hc⟩
        · rintro (h | h)
          · exact Or.inl (by rw [Bool.or_eq_true_iff]; exact Or.inl h)
          · obtain ⟨j, hj, hq, hc⟩ := h
            cases j with
            | zero =>
                refine Or.inl ?_
                rw [Bool.or_eq_true_iff]
                refine Or.inr (by simp; omega)
            | succ j' =>
                refine Or.inr ⟨j', by simpa using hj, by omega, by simpa using hc⟩
      · rw [if_neg hcx]
        constructor
        · rintro (h | h)
          · exact Or.inl h
          · obtain ⟨j, hj, hq, hc⟩ := h
            exact Or.inr ⟨j + 1, by simpa using hj, by omega, by simpa using hc⟩
        · rintro (h | h)
          · exact Or.inl h
          · obtain ⟨j, hj, hq, hc⟩ := h
            cases j with
            | zero =>
                exfalso
                apply hcx
                simp only [List.get?] at hc
                exact (Option.some_inj.mp hc).symm
            | succ j' =>
                refine Or.inr ⟨j', by simpa using hj, by omega, by simpa using hc⟩

theorem lenSum_nil : lenSum ([] : List Str) = 0 := rfl

theorem laneGate_lower (g : List Str) (off q : ℕ) (h : LaneGate g off q) :
    off ≤ q := by
  induction g generalizing off with
  | nil => exact absurd h (by simp [LaneGate])
  | cons t rest ih =>
      rcases h with h | h
      · exact h.1
      · have := ih (off + t.length) h
        omega

theorem notLaneGate_top (g : List Str) (off : ℕ) (hne : ∀ t ∈ g, t ≠ []) :
    ∀ i, i < g.length → ¬ LaneGate g off (off + lenSum (g.take (i + 1)) - 1) := by
  induction g generalizing off with
  | nil => intro i hi; simp at hi
  | cons t rest ih =>
      intro i hi
      have htne : t.length ≥ 1 := by
        have := hne t (by simp)
        cases t with
        | nil => simp at this
        | cons _ _ => simp
      cases i with
      | zero =>
          simp only [List.take_succ_cons, List.take_zero, lenSum_cons,
            lenSum_nil]
          rintro (h | h)
          · omega
          · have := laneGate_lower _ _ _ h
            omega
      | succ i' =>
          intro h
          simp only [List.take_succ_cons, lenSum_cons] at h
          have hS : lenSum (rest.take (i' + 1)) ≥ 1 := by
            have hi' : i' < rest.length := by simpa using hi
            cases hr : rest.take (i' + 1) with
            | nil =>
                exfalso
                have : (rest.take (i' + 1)).length = min (i' + 1) rest.length := by
                  simp
                rw [hr] at this
                simp at this
                omega
            | cons u us =>
                have hu : u ∈ rest := by
                  have h' : u ∈ rest.take (i' + 1) := by rw [hr]; simp
                  exact List.mem_of_mem_take h'
                have hune := hne u (by simp [hu])
                have hul : u.length ≥ 1 := by
                  cases u with
                  | nil => simp at hune
                  | cons _ _ => simp
                rw [lenSum_cons]
                omega
          rcases h with h | h
          · omega
          · have hform : off + (t.length + lenSum (rest.take (i' + 1))) - 1 =
                (off + t.length) + lenSum (rest.take (i' + 1)) - 1 := by omega
            rw [hform] at h
            exact ih (off + t.length) (fun u hu => hne u (by simp [hu])) i'
              (by simpa using hi) h

theorem laneChar_single (t : Str) (off q : ℕ) (c : Char) :
    LaneChar [t] off q c ↔
      (off ≤ q ∧ q < off + t.length ∧ t.get? (q - off) = some c) := by
  show ((off ≤ q ∧ q < off + t.length ∧ t.get? (q - off) = some c) ∨
      LaneChar [] (off + t.length) q c) ↔ _
  simp [LaneChar]

theorem packGo_spec : ∀ (toks accTok : List Str) (accMap : BitMap)
    (offset gate : ℕ),
    (∀ t ∈ toks, t ≠ []) →
    (∀ t ∈ accTok, t ≠ [] ∧ t.length < INT_SIZE) →
    offset = lenSum accTok.reverse →
    offset < INT_SIZE →
    (∀ c q, ((accMap c).getD 0).testBit q = true ↔
      LaneChar accTok.reverse 0 q c) →
    (∀ q, gate.testBit q = true ↔ LaneGate accTok.reverse 0 q) →
    (∀ g ∈ packGo toks accTok accMap offset gate, GroupOK g) ∧
    ((packGo toks accTok accMap offset gate).map (·.tokens)).flatten =
      accTok.reverse ++ toks
  | [], accTok, accMap, offset, gate => by
      intro _ hacc hoff _ hmap hgate
      rw [packGo]
      by_cases hne : accTok ≠ []
      · rw [if_pos hne]
        constructor
        · intro g hg
          simp only [List.mem_singleton] at hg
          subst hg
          refine Or.inr ⟨fun t ht => hacc t (by simpa using ht), ?_, hmap, hgate⟩
          simp only [INT_SIZE] at *
          omega
        · simp
      · rw [if_neg hne]
        push_neg at hne
        subst hne
        simp
  | token :: rest, accTok, accMap, offset, gate => by
      intro htoks hacc hoff hofflt hmap hgate
      rw [packGo]
      by_cases hlarge : token.length ≥ INT_SIZE
      · rw [if_pos hlarge]
        have ihrec := packGo_spec rest [] emptyBitMap 0 0
          (fun t ht => htoks t (by simp [ht]))
          (by simp)
          (by simp [lenSum_nil])
          (by simp [INT_SIZE])
          (by intro c q; simp [emptyBitMap, LaneChar, Nat.zero_testBit])
          (by intro q; simp [LaneGate, Nat.zero_testBit])
        constructor
        · intro g hg
          rcases List.mem_append.mp hg with hg' | hg'
          · by_cases hne : accTok ≠ []
            · rw [if_pos hne] at hg'
              simp only [List.mem_singleton] at hg'
              subst hg'
              refine Or.inr ⟨fun t ht => hacc t (by simpa using ht), ?_, hmap,
                hgate⟩
              simp only [INT_SIZE] at *
              omega
            · rw [if_neg hne] at hg'
              simp at hg'
          · rcases List.mem_cons.mp hg' with hg'' | hg''
            · subst hg''
              exact Or.inl ⟨token, hlarge, rfl, rfl, rfl⟩
            · exact ihrec.1 g hg''
        · by_cases hne : accTok ≠ []
          · rw [if_pos hne]
            simp [ihrec.2]
          · rw [if_neg hne]
            push_neg at hne
            subst hne
            simp [ihrec.2]
      · rw [if_neg hlarge]
        by_cases hfit : token.length + offset ≥ INT_SIZE
        · rw [if_pos hfit]
          have haccne : accTok ≠ [] := by
            intro he
            subst he
            simp only [List.reverse_nil, lenSum_nil] at hoff
            simp only [INT_SIZE] at *
            omega
          have ihrec := packGo_spec (token :: rest) [] emptyBitMap 0 0
            htoks
            (by simp)
            (by simp [lenSum_nil])
            (by simp [INT_SIZE])
            (by intro c q; simp [emptyBitMap, LaneChar, Nat.zero_testBit])
            (by intro q; simp [LaneGate, Nat.zero_testBit])
          constructor
          · intro g hg
            rcases List.mem_cons.mp hg with hg' | hg'
            · subst hg'
              refine Or.inr ⟨fun t ht => hacc t (by simpa using ht), ?_, hmap,
                hgate⟩
              simp only [INT_SIZE] at *
              omega
            · exact ihrec.1 g hg'
          · simp [ihrec.2]
        · rw [if_neg hfit]
          have htok := htoks token (by simp)
          have htlen : 1 ≤ token.length := by
            cases token with
            | nil => simp at htok
            | cons _ _ => simp
          have hoff' : offset + token.length =
              lenSum ((token :: accTok).reverse) := by
            rw [List.reverse_cons, lenSum_append, ← hoff, lenSum_cons,
              lenSum_nil]
            omega
          have ihrec := packGo_spec rest (token :: accTok)
            (bitVector token accMap offset) (offset + token.length)
            (gate ||| (((1 <<< (token.length - 1)) - 1) <<< offset))
            (fun t ht => htoks t (by simp [ht]))
            (by
              intro t ht
              rcases List.mem_cons.mp ht with h' | h'
              · subst h'
                exact ⟨htok, by omega⟩
              · exact hacc t h')
            hoff'
            (by simp only [INT_SIZE] at *; omega)
            (by
              intro c q
              rw [List.reverse_cons]
              rw [bitVector, bitVecGo_spec, laneChar_append, ← hoff,
                laneChar_single]
              constructor
              · rintro (h | h)
                · exact Or.inl ((hmap c q).mp h)
                · obtain ⟨j, hj, hq, hc⟩ := h
                  refine Or.inr ⟨by omega, by omega, ?_⟩
                  rw [show 0 + offset = offset by omega,
                    show q - offset = j by omega]
                  exact hc
              · rintro (h | h)
                · exact Or.inl ((hmap c q).mpr h)
                · obtain ⟨hq1, hq2, hc⟩ := h
                  rw [show 0 + offset = offset by omega] at hq1 hq2 hc
                  exact Or.inr ⟨q - offset, by omega, by omega, hc⟩)
            (by
              intro q
              rw [List.reverse_cons]
              rw [Nat.testBit_lor, laneGate_append, ← hoff]
              have hmask : ((((1 <<< (token.length - 1)) - 1) <<< offset) :
                  ℕ).testBit q =
                  (decide (q ≥ offset) &&
                    decide (q - offset < token.length - 1)) := by
                rw [Nat.testBit_shiftLeft, Nat.shiftLeft_eq, one_mul,
                  Nat.testBit_two_pow_sub_one]
              rw [Bool.or_eq_true_iff, hmask]
              constructor
              · rintro (h | h)
                · exact Or.inl ((hgate q).mp h)
                · simp only [Bool.and_eq_true, decide_eq_true_eq] at h
                  refine Or.inr ?_
                  simp only [LaneGate, or_false]
                  omega
              · rintro (h | h)
                · exact Or.inl ((hgate q).mpr h)
                · simp only [LaneGate, or_false] at h
                  refine Or.inr ?_
                  simp only [Bool.and_eq_true, ge_iff_le, decide_eq_true_eq]
                  omega)
          constructor
          · exact ihrec.1
          · rw [ihrec.2, List.reverse_cons]
            simp
termination_by toks _ _ offset _ => toks.length * 2 + min offset 1
decreasing_by
  all_goals simp_wf
  all_goals simp only [INT_SIZE, min_def] at *
  all_goals try split_ifs
  all_goals omega

/-- **C7.** `pack_tokens` preserves the packing invariants: the emitted
groups partition the token list in order; any token of length ≥ `INT_SIZE`
is emitted as its own single-token group with the position-vector alphabet
variant; and in every bit-mapped group the lanes occupy disjoint bit ranges
(each bit of the combined alphabet map belongs to exactly the lane laid out
over its range, per `LaneChar`), the total packed length satisfies
`Σ len_i ≤ INT_SIZE`, and the gate has a zero bit at the top bit position
of every lane. -/
theorem pack_tokens_invariants (tokens : List Str)
    (hne : ∀ t ∈ tokens, t ≠ []) :
    ((pack_tokens tokens).map (·.tokens)).flatten = tokens ∧
    ∀ g ∈ pack_tokens tokens,
      GroupOK g ∧
      (∀ t ∈ g.tokens, INT_SIZE ≤ t.length →
        g.tokens = [t] ∧ g.map = AlphaMap.pos (posVector t)) ∧
      (∀ mp, g.map = AlphaMap.bits mp →
        lenSum g.tokens ≤ INT_SIZE ∧
        (∀ c q, ((mp c).getD 0).testBit q = true ↔
          LaneChar g.tokens 0 q c) ∧
        ∀ i, i < g.tokens.length →
          g.gate.testBit (lenSum (g.tokens.take (i + 1)) - 1) = false) := by
  have hspec := packGo_spec tokens [] emptyBitMap 0 0 hne
    (by simp)
    (by simp [lenSum_nil])
    (by simp [INT_SIZE])
    (by intro c q; simp [emptyBitMap, LaneChar, Nat.zero_testBit])
    (by intro q; simp [LaneGate, Nat.zero_testBit])
  refine ⟨by simpa [pack_tokens] using hspec.2, ?_⟩
  intro g hg
  have hok : GroupOK g := hspec.1 g (by simpa [pack_tokens] using hg)
  refine ⟨hok, ?_, ?_⟩
  · intro t ht hlen
    rcases hok with ⟨t', ht', htoks, hmapok, _⟩ | ⟨hsh, _, _, _⟩
    · rw [htoks] at ht
      simp only [List.mem_singleton] at ht
      subst ht
      exact ⟨htoks, hmapok⟩
    · exact absurd hlen (by have := (hsh t ht).2; omega)
  · intro mp hmp
    rcases hok with ⟨t', _, _, hmapok, _⟩ | ⟨hsh, hlen, hmap, hgate⟩
    · rw [hmp] at hmapok
      exact absurd hmapok (by simp)
    · refine ⟨hlen, ?_, ?_⟩
      · intro c q
        have := hmap c q
        rw [hmp] at this
        simpa [AlphaMap.getBits] using this
      · intro i hi
        have hnot := notLaneGate_top g.tokens 0
          (fun t ht => (hsh t ht).1) i hi
        rw [show 0 + lenSum (g.tokens.take (i + 1)) - 1 =
          lenSum (g.tokens.take (i + 1)) - 1 by omega] at hnot
        by_contra hbit
        rw [Bool.not_eq_false] at hbit
        exact hnot ((hgate _).mp hbit)

theorem pack_tokens_invariants_witness :
    (∀ t ∈ [['a','b'],['c','d']], t ≠ ([] : Str)) ∧
    (((pack_tokens [['a','b'],['c','d']]).map (·.tokens)).flatten =
        [['a','b'],['c','d']] ∧
      ∀ g ∈ pack_tokens [['a','b'],['c','d']],
        GroupOK g ∧
        (∀ t ∈ g.tokens, INT_SIZE ≤ t.length →
          g.tokens = [t] ∧ g.map = AlphaMap.pos (posVector t)) ∧
        (∀ mp, g.map = AlphaMap.bits mp →
          lenSum g.tokens ≤ INT_SIZE ∧
          (∀ c q, ((mp c).getD 0).testBit q = true ↔
            LaneChar g.tokens 0 q c) ∧
          ∀ i, i < g.tokens.length →
            g.gate.testBit (lenSum (g.tokens.take (i + 1)) - 1) = false)) :=
  ⟨by decide, pack_tokens_invariants [['a','b'],['c','d']] (by decide)⟩
theorem score_map_nil_left (b : Str) (mp : AlphaMap) (o : Options) :
    score_map [] b mp o = 0 := by
  simp [score_map]

theorem score_map_nil_right (a : Str) (mp : AlphaMap) (o : Options) :
    score_map a [] mp o = 0 := by
  simp [score_map]

theorem joinSpace_nil : joinSpace [] = [] := rfl

theorem prepQuery_empty_single (o : Options) :
    (prepQuery o []).single = true := by
  unfold prepQuery splitSpace filterSize
  cases hspt : o.score_per_token <;> simp [hspt]
  simp only [List.filterMap_cons, List.filterMap_nil]
  split <;> simp

theorem prepQuery_empty_fused (o : Options) :
    (prepQuery o []).fused_str = [] := by
  unfold prepQuery
  simp

theorem scoreFieldSingle_empty_query (o : Options) (q : Query) (f : List Str)
    (fu : ℚ) (hq : q.fused_str = []) (hfu : 0 ≤ fu) :
    scoreFieldSingle o q f fu = (0, fu) := by
  unfold scoreFieldSingle
  have hfold : ∀ (toks : List Str) (acc : ℚ), 0 ≤ acc →
      toks.foldl (fun acc tok =>
        let sc := score_map q.fused_str tok q.fused_map o
        if sc > acc then sc else acc) acc = acc := by
    intro toks
    induction toks with
    | nil => intro acc _; rfl
    | cons t rest ih =>
        intro acc hacc
        rw [List.foldl_cons]
        simp only [hq, score_map_nil_left] at ih ⊢
        rw [if_neg (not_lt.mpr hacc)]
        exact ih acc hacc
  rw [hfold f 0 le_rfl]
  cases hstf : o.score_test_fused
  · simp [hstf]
  · simp only [hstf, hq, score_map_nil_left, if_true]
    rw [if_neg (by norm_num), if_neg (by exact not_lt.mpr hfu)]

theorem fieldLoop_empty_query (o : Options) (q : Query)
    (hq : q.fused_str = []) (hsingle : q.single = true) :
    ∀ (fields : List (List Str)) (idx : ℕ) (mi : ℤ) (pb : ℚ)
      (scI : List (List ℚ)),
      fieldLoop o q fields idx 0 mi pb scI 0 = (0, mi, scI, 0) := by
  intro fields
  induction fields with
  | nil => intro idx mi pb scI; rfl
  | cons f rest ih =>
      intro idx mi pb scI
      rw [fieldLoop]
      have hr : (if o.score_per_token then
          if q.single then
            let t := scoreFieldSingle o q f 0
            ((t.1, scI, t.2) : ℚ × List (List ℚ) × ℚ)
          else scoreField o q f scI 0
        else (score_map q.fused_str (joinSpace f) q.fused_map o, scI, 0)) =
          (0, scI, 0) := by
        cases hspt : o.score_per_token
        · simp only [hspt, Bool.false_eq_true, if_false, hq,
            score_map_nil_left]
        · simp only [hspt, if_true, hsingle,
            scoreFieldSingle_empty_query o q f 0 hq le_rfl]
      rw [hr]
      simp only [zero_mul]
      rw [if_neg (by norm_num)]
      exact ih (idx + 1) mi (pb * o.bonus_position_decay) scI

theorem scoreItem_empty_query (o : Options) (q : Query)
    (hq : q.fused_str = []) (hsingle : q.single = true)
    (fields : List (List Str)) : scoreItem o q fields = (0, -1) := by
  simp only [scoreItem]
  rw [fieldLoop_empty_query o q hq hsingle]
  simp [hsingle]

theorem searchIndexGo_empty_query (o : Options) (q : Query)
    (hq : q.fused_str = []) (hsingle : q.single = true) :
    ∀ (src : List (Indexed α)) (results : List (SearchResult α)) (thresh : ℚ),
      0 ≤ thresh →
      searchIndexGo o q src results thresh 0 = (results, thresh) := by
  intro src
  induction src with
  | nil => intro results thresh _; rfl
  | cons it rest ih =>
      intro results thresh hthresh
      rw [searchIndexGo, scoreItem_empty_query o q hq hsingle]
      simp only
      rw [if_neg (show ¬((0 : ℚ) > 0) by norm_num)]
      simp only
      rw [if_neg (show ¬((0 : ℚ) > thresh) from not_lt.mpr hthresh)]
      exact ih results thresh hthresh

theorem bestOverField_nil (o : Options) (g : PackInfo) :
    bestOverField o g [] = g.tokens.map (fun _ => ((0 : ℚ), 0)) := rfl

theorem laneLoop_zeros (o : Options) (hmm : 0 ≤ o.minimum_match) :
    ∀ (bests : List (ℚ × ℕ)) (scItem : List ℚ) (fs : ℚ) (li : ℤ),
      (∀ b ∈ bests, b.1 = 0) →
      scItem.length = bests.length →
      (∀ x ∈ scItem, 0 ≤ x) →
      laneLoop o bests scItem fs li = (fs, scItem, li) := by
  intro bests
  induction bests with
  | nil =>
      intro scItem fs li _ hlen _
      cases scItem with
      | nil => rfl
      | cons s ss => simp at hlen
  | cons b rest ih =>
      intro scItem fs li hz hlen hpos
      cases scItem with
      | nil => simp at hlen
      | cons s ss =>
          have hb : b.1 = 0 := hz b (by simp)
          have h1 : ¬(0 > o.minimum_match) := not_lt.mpr hmm
          have h2 : ¬((0 : ℚ) > s) := not_lt.mpr (hpos s (by simp))
          rw [laneLoop]
          simp only [hb, List.headD_cons, List.tail_cons, add_zero, h1, h2,
            if_false, ite_false]
          rw [ih ss fs li (fun b' hb' => hz b' (List.mem_cons_of_mem b hb'))
            (by simpa using hlen)
            (fun x hx => hpos x (List.mem_cons_of_mem s hx))]

theorem sfGroups_nil_fields (o : Options) (hmm : 0 ≤ o.minimum_match) :
    ∀ (gs : List PackInfo) (scItems : List (List ℚ)) (fs : ℚ) (li : ℤ),
      scItems.map List.length = gs.map (fun g => g.tokens.length) →
      (∀ l ∈ scItems, ∀ x ∈ l, 0 ≤ x) →
      sfGroups o [] gs scItems fs li = (fs, scItems) := by
  intro gs
  induction gs with
  | nil =>
      intro scItems fs li hsh _
      cases scItems with
      | nil => rfl
      | cons s ss => simp at hsh
  | cons g rest ih =>
      intro scItems fs li hsh hpos
      cases scItems with
      | nil => simp at hsh
      | cons s ss =>
          simp only [List.map_cons, List.cons.injEq] at hsh
          obtain ⟨hs1, hs2⟩ := hsh
          rw [sfGroups]
          simp only [List.headD_cons, List.tail_cons, bestOverField_nil]
          rw [laneLoop_zeros o hmm _ s fs li
            (fun b hb => by
              obtain ⟨t, _, ht⟩ := List.mem_map.mp hb
              rw [← ht])
            (by simpa using hs1)
            (fun x hx => hpos s (by simp) x hx)]
          simp only
          rw [ih ss fs li hs2 (fun l hl => hpos l (List.mem_cons_of_mem s hl))]

theorem scoreField_nil_fields (o : Options) (q : Query) (scI : List (List ℚ))
    (fu : ℚ) (hmm : 0 ≤ o.minimum_match) (hfu : 0 ≤ fu)
    (hsh : scI.map List.length = q.tokens_groups.map (fun g => g.tokens.length))
    (hpos : ∀ l ∈ scI, ∀ x ∈ l, 0 ≤ x) :
    scoreField o q [] scI fu = (0, scI, fu) := by
  simp only [scoreField]
  rw [sfGroups_nil_fields o hmm q.tokens_groups scI 0 (-1) hsh hpos]
  cases hstf : o.score_test_fused
  · simp [hstf]
  · simp only [hstf, joinSpace_nil, score_map_nil_right, if_true]
    rw [if_neg (show ¬((0 : ℚ) > 0) by norm_num),
      if_neg (not_lt.mpr hfu)]

theorem search_empty_query (o : Options) (index : List (Indexed α))
    (hti : 0 ≤ o.thresh_include) :
    search o index [] = [] := by
  simp only [search, searchIndex]
  rw [searchIndexGo_empty_query o (prepQuery o []) (prepQuery_empty_fused o)
    (prepQuery_empty_single o) index [] o.thresh_include hti]
  simp [filterGTE]

/-- **C8** (amended: the empty-query part needs `0 ≤ thresh_include`; the
source pushes any item whose score exceeds the running threshold, and an
empty query gives every item the score `0`, which exceeds a negative
`thresh_include`).  With a nonnegative inclusion threshold, a query that
normalises to empty returns no results; and an empty field list neither
contributes to the field score nor disturbs the threaded per-lane bests or
the fused score. -/
theorem empty_query_empty_fields (o : Options) (q : Query)
    (index : List (Indexed α)) (scI : List (List ℚ)) (fu : ℚ)
    (hti : 0 ≤ o.thresh_include) (hmm : 0 ≤ o.minimum_match) (hfu : 0 ≤ fu)
    (hsh : scI.map List.length = q.tokens_groups.map (fun g => g.tokens.length))
    (hpos : ∀ l ∈ scI, ∀ x ∈ l, 0 ≤ x) :
    search o index [] = [] ∧ scoreField o q [] scI fu = (0, scI, fu) :=
  ⟨search_empty_query o index hti,
    scoreField_nil_fields o q scI fu hmm hfu hsh hpos⟩

theorem empty_query_empty_fields_witness :
    ((0 : ℚ) ≤ defaultOptions.thresh_include ∧
      (0 : ℚ) ≤ defaultOptions.minimum_match ∧ (0 : ℚ) ≤ (0 : ℚ) ∧
      ([] : List (List ℚ)).map List.length =
        (Query.mk [] [] [] (AlphaMap.bits emptyBitMap) true).tokens_groups.map
          (fun g => g.tokens.length) ∧
      (∀ l ∈ ([] : List (List ℚ)), ∀ x ∈ l, (0 : ℚ) ≤ x)) ∧
    (search defaultOptions [Indexed.mk (1 : ℕ) [[['a']]]] [] = [] ∧
      scoreField defaultOptions
        (Query.mk [] [] [] (AlphaMap.bits emptyBitMap) true) [] [] 0 =
        (0, [], 0)) :=
  ⟨⟨by norm_num [defaultOptions], by norm_num [defaultOptions], le_rfl, rfl,
      by simp⟩,
    empty_query_empty_fields defaultOptions
      (Query.mk [] [] [] (AlphaMap.bits emptyBitMap) true)
      [Indexed.mk (1 : ℕ) [[['a']]]] [] 0
      (by norm_num [defaultOptions]) (by norm_num [defaultOptions]) le_rfl rfl
      (by simp)⟩

/-- **C8** (counterexample to the unamended claim): with
`thresh_include = -1` (an allowed configuration), a search with an empty
query string over a one-item collection returns that item: every item
scores `0` on the empty query, `0 > -1`, and the final `filterGTE` keeps
the result, so the result list is not empty. -/
theorem search_empty_query_negative_thresh :
    search { defaultOptions with thresh_include := -1 }
      [Indexed.mk (1 : ℕ) [[['a']]]] [] = [1] := by
  have hq := prepQuery_empty_fused { defaultOptions with thresh_include := -1 }
  have hs := prepQuery_empty_single { defaultOptions with thresh_include := -1 }
  have hsi : scoreItem { defaultOptions with thresh_include := -1 }
      (prepQuery { defaultOptions with thresh_include := -1 } []) [[['a']]] =
      (0, -1) :=
    scoreItem_empty_query _ _ hq hs _
  have hround : roundScore { defaultOptions with thresh_include := -1 } 0 = 0 := by
    norm_num [roundScore, jsRound, defaultOptions]
  simp only [search, searchIndex, searchIndexGo, hsi]
  simp only [defaultOptions] at hround ⊢
  norm_num [hround, filterGTE, joinSpace]
/-- Spec-side: the item score `_searchIndex` computes for one record. -/
def itemScoreSpec (o : Options) (q : Query) (it : Indexed α) : ℚ :=
  (scoreItem o q it.fields).1

/-- Spec-side: the result record `_searchIndex` pushes for an admitted
item. -/
def resultOfSpec (o : Options) (q : Query) (it : Indexed α) : SearchResult α :=
  SearchResult.mk it.item it.fields (roundScore o (itemScoreSpec o q it))
    (scoreItem o q it.fields).2 (joinSpace (it.fields.headD []))

/-- Spec-side (the claim's admission rule): walk the source keeping a
running best item score; each item is admitted iff its score exceeds
`max thresh_include (best_so_far * thresh_relative_to_best)`, the running
best including the item itself. -/
def admittedSpec (o : Options) (q : Query) :
    List (Indexed α) → ℚ → List (SearchResult α)
  | [], _ => []
  | it :: rest, best =>
      let s := itemScoreSpec o q it
      let best' := max best s
      let thresh := max o.thresh_include (best' * o.thresh_relative_to_best)
      (if s > thresh then [resultOfSpec o q it] else []) ++
        admittedSpec o q rest best'

/-- Spec-side: the final inclusion threshold,
`max thresh_include (best_item_score * thresh_relative_to_best)`. -/
def finalThreshSpec (o : Options) (q : Query) (source : List (Indexed α)) : ℚ :=
  max o.thresh_include
    ((source.map (itemScoreSpec o q)).foldl max 0 * o.thresh_relative_to_best)

theorem searchIndexGo_charact (o : Options) (q : Query)
    (htrb : 0 ≤ o.thresh_relative_to_best) :
    ∀ (src : List (Indexed α)) (results : List (SearchResult α))
      (thresh best : ℚ),
      0 ≤ best →
      thresh = max o.thresh_include (best * o.thresh_relative_to_best) →
      (searchIndexGo o q src results thresh best).1 =
        results ++ admittedSpec o q src best ∧
      (searchIndexGo o q src results thresh best).2 =
        max o.thresh_include
          ((src.map (itemScoreSpec o q)).foldl max best *
            o.thresh_relative_to_best) := by
  intro src
  induction src with
  | nil =>
      intro results thresh best _ hthresh
      exact ⟨by simp [searchIndexGo, admittedSpec], by
        simp only [searchIndexGo, List.map_nil, List.foldl_nil]
        exact hthresh⟩
  | cons it rest ih =>
      intro results thresh best hbest hthresh
      rw [searchIndexGo]
      have hres : SearchResult.mk it.item it.fields
          (roundScore o (scoreItem o q it.fields).1)
          (scoreItem o q it.fields).2 (joinSpace (it.fields.headD [])) =
          resultOfSpec o q it := rfl
      by_cases hib : (scoreItem o q it.fields).1 > best
      · have hmax : (if (scoreItem o q it.fields).1 *
            o.thresh_relative_to_best > thresh then
              (scoreItem o q it.fields).1 * o.thresh_relative_to_best
            else thresh) =
            max o.thresh_include
              ((scoreItem o q it.fields).1 * o.thresh_relative_to_best) := by
          rw [hthresh]
          split_ifs with h
          · exact (max_eq_right
              (le_of_lt (lt_of_le_of_lt (le_max_left _ _) h))).symm
          · push_neg at h
            exact le_antisymm
              (max_le_max le_rfl
                (mul_le_mul_of_nonneg_right (le_of_lt hib) htrb))
              (max_le (le_max_left _ _) h)
        simp only [if_pos hib, hmax, hres]
        have hb' : max best (scoreItem o q it.fields).1 =
            (scoreItem o q it.fields).1 := max_eq_right (le_of_lt hib)
        have hrec := ih
          (if (scoreItem o q it.fields).1 >
              max o.thresh_include
                ((scoreItem o q it.fields).1 * o.thresh_relative_to_best)
            then results ++ [resultOfSpec o q it] else results)
          (max o.thresh_include
            ((scoreItem o q it.fields).1 * o.thresh_relative_to_best))
          (scoreItem o q it.fields).1
          (le_of_lt (lt_of_le_of_lt hbest hib)) rfl
        constructor
        · rw [hrec.1, admittedSpec]
          simp only [itemScoreSpec, hb']
          split_ifs with h
          · simp
          · simp
        · rw [hrec.2, List.map_cons, List.foldl_cons]
          have hseed : max best (itemScoreSpec o q it) =
              (scoreItem o q it.fields).1 := by
            simp only [itemScoreSpec]
            exact hb'
          rw [hseed]
      · simp only [if_neg hib, hres]
        have hb' : max best (scoreItem o q it.fields).1 = best :=
          max_eq_left (not_lt.mp hib)
        have hrec := ih
          (if (scoreItem o q it.fields).1 > thresh
            then results ++ [resultOfSpec o q it] else results)
          thresh best hbest hthresh
        constructor
        · rw [hrec.1, admittedSpec]
          simp only [itemScoreSpec, hb', ← hthresh]
          split_ifs with h
          · simp
          · simp
        · rw [hrec.2, List.map_cons, List.foldl_cons]
          have hseed : max best (itemScoreSpec o q it) = best := by
            simp only [itemScoreSpec]
            exact hb'
          rw [hseed]

/-- **C6.** An item is retained in the returned result list iff its score
exceeds the running inclusion threshold
`max thresh_include (best_item_score_so_far * thresh_relative_to_best)`
(the running best including the item itself), and its rounded score still
meets the final threshold when `filterGTE` prunes the list before it is
returned.  Stated as: the filtered result list of `_searchIndex` equals the
claim's admission rule (`admittedSpec`) filtered by the final threshold.
Needs `0 ≤ thresh_include` and `0 ≤ thresh_relative_to_best` (the source
only raises the threshold on a strict new best, so a negative
`thresh_include` is never raised to `best * rel_to_best` while the best
stays `0`). -/
theorem search_inclusion_iff_running_threshold (o : Options) (q : Query)
    (source : List (Indexed α))
    (hti : 0 ≤ o.thresh_include) (htrb : 0 ≤ o.thresh_relative_to_best) :
    filterGTE (searchIndex o q source).1 (searchIndex o q source).2 =
      filterGTE (admittedSpec o q source 0) (finalThreshSpec o q source) := by
  have h := searchIndexGo_charact o q htrb source [] o.thresh_include 0 le_rfl
    (by rw [zero_mul, max_eq_left hti])
  unfold searchIndex
  rw [h.1, h.2, List.nil_append, finalThreshSpec]

theorem search_inclusion_iff_running_threshold_witness :
    ((0 : ℚ) ≤ defaultOptions.thresh_include ∧
      (0 : ℚ) ≤ defaultOptions.thresh_relative_to_best) ∧
    (filterGTE
        (searchIndex defaultOptions
          (Query.mk ['a'] [] ['a'] (alphabet ['a']) true)
          [Indexed.mk (1 : ℕ) [[['a']]]]).1
        (searchIndex defaultOptions
          (Query.mk ['a'] [] ['a'] (alphabet ['a']) true)
          [Indexed.mk (1 : ℕ) [[['a']]]]).2 =
      filterGTE
        (admittedSpec defaultOptions
          (Query.mk ['a'] [] ['a'] (alphabet ['a']) true)
          [Indexed.mk (1 : ℕ) [[['a']]]] 0)
        (finalThreshSpec defaultOptions
          (Query.mk ['a'] [] ['a'] (alphabet ['a']) true)
          [Indexed.mk (1 : ℕ) [[['a']]]])) :=
  ⟨⟨by norm_num [defaultOptions], by norm_num [defaultOptions]⟩,
    search_inclusion_iff_running_threshold defaultOptions
      (Query.mk ['a'] [] ['a'] (alphabet ['a']) true)
      [Indexed.mk (1 : ℕ) [[['a']]]]
      (by norm_num [defaultOptions]) (by norm_num [defaultOptions])⟩
theorem if_gt_eq_max (a b : ℚ) : (if a > b then a else b) = max b a := by
  split_ifs with h
  · exact (max_eq_right h.le).symm
  · exact (max_eq_left (not_lt.mp h)).symm

theorem laneLoop_proj (o : Options) :
    ∀ (bests : List (ℚ × ℕ)) (scItem scItem' : List ℚ) (fs : ℚ) (li : ℤ),
      (laneLoop o bests scItem fs li).1 =
        (laneLoop o bests scItem' fs li).1 ∧
      (laneLoop o bests scItem fs li).2.2 =
        (laneLoop o bests scItem' fs li).2.2 := by
  intro bests
  induction bests with
  | nil => intro scItem scItem' fs li; exact ⟨rfl, rfl⟩
  | cons b rest ih =>
      intro scItem scItem' fs li
      rw [laneLoop, laneLoop]
      simp only
      exact ih scItem.tail scItem'.tail _ _

theorem laneLoop_scItem (o : Options) :
    ∀ (bests : List (ℚ × ℕ)) (scItem : List ℚ) (fs : ℚ) (li : ℤ),
      scItem.length = bests.length →
      (laneLoop o bests scItem fs li).2.1 =
        List.zipWith (fun b s => max s b.1) bests scItem := by
  intro bests
  induction bests with
  | nil =>
      intro scItem fs li hlen
      cases scItem with
      | nil => rfl
      | cons s ss => simp at hlen
  | cons b rest ih =>
      intro scItem fs li hlen
      cases scItem with
      | nil => simp at hlen
      | cons s ss =>
          rw [laneLoop]
          simp only [List.headD_cons, List.tail_cons, List.zipWith_cons_cons]
          rw [if_gt_eq_max]
          rw [ih ss _ _ (by simpa using hlen)]

theorem packLanes_length (o : Options) :
    ∀ (toks : List Str) (S : ℕ) (ft : Str) (off : ℕ),
      (packLanes o S ft toks off).length = toks.length := by
  intro toks
  induction toks with
  | nil => intro S ft off; rfl
  | cons t rest ih =>
      intro S ft off
      rw [packLanes]
      split_ifs <;> simp [ih]

theorem score_pack_length (g : PackInfo) (ft : Str) (o : Options) :
    (score_pack g ft o).length = g.tokens.length := by
  unfold score_pack
  rw [packLanes_length]

theorem bestOverField_length (o : Options) (g : PackInfo) (f : List Str) :
    (bestOverField o g f).length = g.tokens.length := by
  unfold bestOverField
  have h : ∀ (l : List (ℕ × Str)) (cur : List (ℚ × ℕ)),
      cur.length = g.tokens.length →
      (l.foldl (fun cur it =>
        let scores :=
          if g.tokens.length = 1 then
            [score_map (g.tokens.getD 0 []) it.2 g.map o]
          else score_pack g it.2 o
        updBest cur scores it.1) cur).length = g.tokens.length := by
    intro l
    induction l with
    | nil => intro cur hcur; exact hcur
    | cons p rest ih =>
        intro cur hcur
        rw [List.foldl_cons]
        refine ih _ ?_
        simp only [updBest, List.length_zipWith]
        split_ifs with h1
        · simp [hcur, h1]
        · simp [hcur, score_pack_length]
  rw [h]
  simp

theorem sfGroups_proj (o : Options) (ft : List Str) :
    ∀ (gs : List PackInfo) (scItems scItems' : List (List ℚ)) (fs : ℚ)
      (li : ℤ),
      (sfGroups o ft gs scItems fs li).1 =
        (sfGroups o ft gs scItems' fs li).1 := by
  intro gs
  induction gs with
  | nil => intro scItems scItems' fs li; rfl
  | cons g rest ih =>
      intro scItems scItems' fs li
      rw [sfGroups, sfGroups]
      simp only
      have hp := laneLoop_proj o (bestOverField o g ft) (scItems.headD [])
        (scItems'.headD []) fs li
      rw [hp.1, hp.2]
      exact ih scItems.tail scItems'.tail _ _

theorem sfGroups_scItems (o : Options) (ft : List Str) :
    ∀ (gs : List PackInfo) (scItems : List (List ℚ)) (fs : ℚ) (li : ℤ),
      scItems.map List.length = gs.map (fun g => g.tokens.length) →
      (sfGroups o ft gs scItems fs li).2 =
        List.zipWith (fun g sl => List.zipWith (fun b s => max s b.1)
          (bestOverField o g ft) sl) gs scItems := by
  intro gs
  induction gs with
  | nil =>
      intro scItems fs li hsh
      cases scItems with
      | nil => rfl
      | cons s ss => simp at hsh
  | cons g rest ih =>
      intro scItems fs li hsh
      cases scItems with
      | nil => simp at hsh
      | cons s ss =>
          simp only [List.map_cons, List.cons.injEq] at hsh
          rw [sfGroups]
          simp only [List.headD_cons, List.tail_cons,
            List.zipWith_cons_cons]
          rw [laneLoop_scItem o _ s _ _ (by rw [hsh.1, bestOverField_length]),
            ih ss _ _ hsh.2]

/-- Spec-side: the per-field fused score computed inside `_scoreField`. -/
def fusedOfSpec (o : Options) (q : Query) (f : List Str) : ℚ :=
  score_map q.fused_str (joinSpace f) q.fused_map o

/-- Spec-side: the score `_scoreField` assigns to one field.  The field
score does not depend on the threaded transient state (proved in
`scoreField_fst`), so it is a function of the field alone. -/
def fieldScoreSpec (o : Options) (q : Query) (f : List Str) : ℚ :=
  (scoreField o q f
    (q.tokens_groups.map fun g => g.tokens.map fun _ => (0 : ℚ)) 0).1

/-- The update `_scoreField` applies to the per-lane `score_item` state:
pointwise maximum with the field's per-lane bests. -/
def scIStepSpec (o : Options) (q : Query) (f : List Str)
    (scI : List (List ℚ)) : List (List ℚ) :=
  List.zipWith (fun g sl => List.zipWith (fun b s => max s b.1)
    (bestOverField o g f) sl) q.tokens_groups scI

theorem scoreField_fst (o : Options) (q : Query) (f : List Str)
    (scI : List (List ℚ)) (fu : ℚ) :
    (scoreField o q f scI fu).1 = fieldScoreSpec o q f := by
  simp only [scoreField, fieldScoreSpec]
  rw [sfGroups_proj o f q.tokens_groups scI
    (q.tokens_groups.map fun g => g.tokens.map fun _ => (0 : ℚ)) 0 (-1)]
  cases hstf : o.score_test_fused <;> simp [hstf]

theorem scoreField_scI (o : Options) (q : Query) (f : List Str)
    (scI : List (List ℚ)) (fu : ℚ)
    (hsh : scI.map List.length =
      q.tokens_groups.map fun g => g.tokens.length) :
    (scoreField o q f scI fu).2.1 = scIStepSpec o q f scI := by
  simp only [scoreField, scIStepSpec]
  rw [sfGroups_scItems o f q.tokens_groups scI 0 (-1) hsh]
  cases hstf : o.score_test_fused <;> simp [hstf]

theorem scoreField_fu (o : Options) (q : Query) (f : List Str)
    (scI : List (List ℚ)) (fu : ℚ) :
    (scoreField o q f scI fu).2.2 =
      if o.score_test_fused then max fu (fusedOfSpec o q f) else fu := by
  simp only [scoreField, fusedOfSpec]
  cases hstf : o.score_test_fused <;> simp [hstf, if_gt_eq_max]

theorem zipWith_snd_id : ∀ (gs : List PackInfo) (init : List (List ℚ)),
    init.length = gs.length →
    List.zipWith (fun _ sl => sl) gs init = init := by
  intro gs
  induction gs with
  | nil =>
      intro init hlen
      cases init with
      | nil => rfl
      | cons s ss => simp at hlen
  | cons g rest ih =>
      intro init hlen
      cases init with
      | nil => simp at hlen
      | cons s ss =>
          simp only [List.zipWith_cons_cons]
          rw [ih ss (by simpa using hlen)]

theorem zipWith_zipWith_same (F G : PackInfo → List ℚ → List ℚ) :
    ∀ (gs : List PackInfo) (init : List (List ℚ)),
    List.zipWith F gs (List.zipWith G gs init) =
      List.zipWith (fun g sl => F g (G g sl)) gs init := by
  intro gs
  induction gs with
  | nil => intro init; rfl
  | cons g rest ih =>
      intro init
      cases init with
      | nil => rfl
      | cons s ss =>
          simp only [List.zipWith_cons_cons]
          rw [ih ss]

theorem foldl_zipWith_comm (inner : PackInfo → List Str → List ℚ → List ℚ) :
    ∀ (fields : List (List Str)) (gs : List PackInfo)
      (init : List (List ℚ)),
      init.length = gs.length →
      fields.foldl (fun scI f =>
          List.zipWith (fun g sl => inner g f sl) gs scI) init =
        List.zipWith (fun g sl =>
          fields.foldl (fun sl f => inner g f sl) sl) gs init := by
  intro fields
  induction fields with
  | nil =>
      intro gs init hlen
      exact (zipWith_snd_id gs init hlen).symm
  | cons f rest ih =>
      intro gs init hlen
      rw [List.foldl_cons]
      rw [ih gs _ (by rw [List.length_zipWith]; omega)]
      rw [zipWith_zipWith_same]
      simp only [List.foldl_cons]

/-- Spec-side: lane `i`'s best score across all the item's fields. -/
def laneBestSpec (o : Options) (g : PackInfo) (fields : List (List Str))
    (i : ℕ) : ℚ :=
  (fields.map (fun f => ((bestOverField o g f).getD i (0, 0)).1)).foldl max 0

/-- Spec-side: the claim's `query_score` — the sum over all pack groups of
each lane's best score across all the item's fields. -/
def queryScoreSpec (o : Options) (q : Query) (fields : List (List Str)) : ℚ :=
  (q.tokens_groups.map (fun g =>
    ((List.range g.tokens.length).map (laneBestSpec o g fields)).sum)).sum

/-- Spec-side: the claim's best position-boosted field score. -/
def bestBoostedSpec (o : Options) (q : Query) (fields : List (List Str)) : ℚ :=
  ((List.range fields.length).map (fun j =>
    fieldScoreSpec o q (fields.getD j []) *
      (1 + o.bonus_position_decay ^ j))).foldl max 0

/-- Spec-side: the query's final `fused_score` after all fields. -/
def fusedScoreSpec (o : Options) (q : Query) (fields : List (List Str)) : ℚ :=
  if o.score_test_fused then (fields.map (fusedOfSpec o q)).foldl max 0
  else 0

/-- Spec-side: the claim's item-score formula (C5's words): `0.5` times the
best position-boosted field score plus `0.5` times `query_score`
(`query_score` replaced by the fused score when that is greater), the
mixing skipped for single-token queries. -/
def claimItemScoreSpec (o : Options) (q : Query)
    (fields : List (List Str)) : ℚ :=
  if o.score_per_token ∧ ¬q.single then
    1/2 * bestBoostedSpec o q fields +
      1/2 * max (fusedScoreSpec o q fields) (queryScoreSpec o q fields)
  else bestBoostedSpec o q fields

theorem laneFold_length (o : Options) (g : PackInfo) :
    ∀ (fields : List (List Str)) (sl : List ℚ),
      sl.length = g.tokens.length →
      (fields.foldl (fun sl f =>
        List.zipWith (fun b s => max s b.1) (bestOverField o g f) sl)
        sl).length = g.tokens.length := by
  intro fields
  induction fields with
  | nil => intro sl h; exact h
  | cons f rest ih =>
      intro sl h
      rw [List.foldl_cons]
      exact ih _ (by rw [List.length_zipWith, bestOverField_length, h]; simp)

theorem laneFold_getD (o : Options) (g : PackInfo) :
    ∀ (fields : List (List Str)) (sl : List ℚ),
      sl.length = g.tokens.length →
      ∀ i, i < g.tokens.length →
      (fields.foldl (fun sl f =>
        List.zipWith (fun b s => max s b.1) (bestOverField o g f) sl)
        sl).getD i 0 =
        (fields.map (fun f =>
          ((bestOverField o g f).getD i (0, 0)).1)).foldl max (sl.getD i 0) := by
  intro fields
  induction fields with
  | nil => intro sl _ i _; rfl
  | cons f rest ih =>
      intro sl hsl i hi
      rw [List.foldl_cons, List.map_cons, List.foldl_cons]
      rw [ih _ (by rw [List.length_zipWith, bestOverField_length, hsl]; simp)
        i hi]
      congr 1
      have hlz : i < (List.zipWith (fun b s => max s b.1)
          (bestOverField o g f) sl).length := by
        rw [List.length_zipWith, bestOverField_length, hsl]
        simpa using hi
      have hb : i < (bestOverField o g f).length := by
        rw [bestOverField_length]; exact hi
      have hs : i < sl.length := by rw [hsl]; exact hi
      rw [List.getD_eq_getElem _ _ hlz, List.getD_eq_getElem _ _ hb,
        List.getD_eq_getElem _ _ hs, List.getElem_zipWith]

theorem laneFold_eq_range (o : Options) (g : PackInfo)
    (fields : List (List Str)) :
    fields.foldl (fun sl f =>
      List.zipWith (fun b s => max s b.1) (bestOverField o g f) sl)
      (g.tokens.map fun _ => (0 : ℚ)) =
    (List.range g.tokens.length).map (laneBestSpec o g fields) := by
  have hinit : (g.tokens.map fun _ => (0 : ℚ)).length = g.tokens.length := by
    simp
  refine List.ext_getElem ?_ ?_
  · rw [laneFold_length o g fields _ hinit]
    simp
  · intro i h1 h2
    have hi : i < g.tokens.length := by
      rw [laneFold_length o g fields _ hinit] at h1
      exact h1
    have hgd := laneFold_getD o g fields _ hinit i hi
    rw [List.getD_eq_getElem _ _ h1] at hgd
    rw [hgd]
    have hz : (g.tokens.map fun _ => (0 : ℚ)).getD i 0 = 0 := by
      rw [List.getD_eq_getElem _ _ (by simpa using hi)]
      simp
    rw [hz]
    simp [laneBestSpec]

theorem scIStepSpec_shape (o : Options) (f : List Str) :
    ∀ (gs : List PackInfo) (scI : List (List ℚ)),
      scI.map List.length = gs.map (fun g => g.tokens.length) →
      (List.zipWith (fun g sl => List.zipWith (fun b s => max s b.1)
        (bestOverField o g f) sl) gs scI).map List.length =
        gs.map (fun g => g.tokens.length) := by
  intro gs
  induction gs with
  | nil => intro scI _; rfl
  | cons g rest ih =>
      intro scI hsh
      cases scI with
      | nil => simp at hsh
      | cons s ss =>
          simp only [List.map_cons, List.cons.injEq] at hsh
          simp only [List.zipWith_cons_cons, List.map_cons, List.cons.injEq]
          refine ⟨?_, ih ss hsh.2⟩
          rw [List.length_zipWith, bestOverField_length, hsh.1]
          simp

theorem fieldLoop_nobreak (o : Options) (q : Query)
    (hspt : o.score_per_token = true) (hsingle : q.single = false) :
    ∀ (fields : List (List Str)) (idx : ℕ) (is : ℚ) (mi : ℤ) (pb : ℚ)
      (scI : List (List ℚ)) (fu : ℚ),
      scI.map List.length = q.tokens_groups.map (fun g => g.tokens.length) →
      (∀ j, j < fields.length →
        fieldScoreSpec o q (fields.getD j []) *
          (1 + pb * o.bonus_position_decay ^ j) ≤ o.field_good_enough) →
      (fieldLoop o q fields idx is mi pb scI fu).1 =
        ((List.range fields.length).map (fun j =>
          fieldScoreSpec o q (fields.getD j []) *
            (1 + pb * o.bonus_position_decay ^ j))).foldl max is ∧
      (fieldLoop o q fields idx is mi pb scI fu).2.2.1 =
        fields.foldl (fun s f => scIStepSpec o q f s) scI ∧
      (fieldLoop o q fields idx is mi pb scI fu).2.2.2 =
        (if o.score_test_fused then
          (fields.map (fusedOfSpec o q)).foldl max fu
         else fu) := by
  intro fields
  induction fields with
  | nil =>
      intro idx is mi pb scI fu _ _
      refine ⟨by simp [fieldLoop], by simp [fieldLoop], ?_⟩
      cases hstf : o.score_test_fused <;> simp [fieldLoop, hstf]
  | cons f rest ih =>
      intro idx is mi pb scI fu hsh hnb
      rw [fieldLoop]
      simp only [hspt, hsingle, Bool.false_eq_true, if_false, if_true]
      rw [scoreField_fst o q f scI fu]
      have hnb0 : fieldScoreSpec o q f * (1 + pb) ≤ o.field_good_enough := by
        have := hnb 0 (by simp)
        simpa using this
      have hshape' : (scoreField o q f scI fu).2.1.map List.length =
          q.tokens_groups.map (fun g => g.tokens.length) := by
        rw [scoreField_scI o q f scI fu hsh]
        exact scIStepSpec_shape o f q.tokens_groups scI hsh
      have hnbrest : ∀ j, j < rest.length →
          fieldScoreSpec o q (rest.getD j []) *
            (1 + pb * o.bonus_position_decay *
              o.bonus_position_decay ^ j) ≤ o.field_good_enough := by
        intro j hj
        have h' := hnb (j + 1) (by simpa using Nat.succ_lt_succ hj)
        simp only [List.getD_cons_succ] at h'
        calc fieldScoreSpec o q (rest.getD j []) *
              (1 + pb * o.bonus_position_decay * o.bonus_position_decay ^ j)
            = fieldScoreSpec o q (rest.getD j []) *
              (1 + pb * o.bonus_position_decay ^ (j + 1)) := by ring
          _ ≤ o.field_good_enough := h'
      have hrange : ∀ (is' : ℚ),
          ((List.range (f :: rest).length).map (fun j =>
            fieldScoreSpec o q ((f :: rest).getD j []) *
              (1 + pb * o.bonus_position_decay ^ j))).foldl max is' =
          ((List.range rest.length).map (fun j =>
            fieldScoreSpec o q (rest.getD j []) *
              (1 + pb * o.bonus_position_decay *
                o.bonus_position_decay ^ j))).foldl max
            (max is' (fieldScoreSpec o q f * (1 + pb))) := by
        intro is'
        rw [List.length_cons, List.range_succ_eq_map, List.map_cons,
          List.foldl_cons, List.map_map]
        have h0 : fieldScoreSpec o q ((f :: rest).getD 0 []) *
            (1 + pb * o.bonus_position_decay ^ 0) =
            fieldScoreSpec o q f * (1 + pb) := by
          simp only [List.getD_cons_zero, pow_zero, mul_one]
        rw [h0]
        have hfun : ((fun j => fieldScoreSpec o q ((f :: rest).getD j []) *
              (1 + pb * o.bonus_position_decay ^ j)) ∘ Nat.succ) =
            (fun j => fieldScoreSpec o q (rest.getD j []) *
              (1 + pb * o.bonus_position_decay *
                o.bonus_position_decay ^ j)) := by
          funext j
          simp only [Function.comp_apply, List.getD_cons_succ, pow_succ]
          ring
        rw [hfun]
      by_cases hgt : fieldScoreSpec o q f * (1 + pb) > is
      · rw [if_pos hgt, if_neg (not_lt.mpr hnb0)]
        have hrec := ih (idx + 1) (fieldScoreSpec o q f * (1 + pb)) idx
          (pb * o.bonus_position_decay) (scoreField o q f scI fu).2.1
          (scoreField o q f scI fu).2.2 hshape' hnbrest
        refine ⟨?_, ?_, ?_⟩
        · rw [hrec.1, hrange is, max_eq_right hgt.le]
        · rw [hrec.2.1, scoreField_scI o q f scI fu hsh, List.foldl_cons]
        · rw [hrec.2.2, scoreField_fu o q f scI fu]
          cases hstf : o.score_test_fused <;>
            simp [hstf, List.foldl_cons]
      · rw [if_neg hgt]
        have hrec := ih (idx + 1) is mi
          (pb * o.bonus_position_decay) (scoreField o q f scI fu).2.1
          (scoreField o q f scI fu).2.2 hshape' hnbrest
        refine ⟨?_, ?_, ?_⟩
        · rw [hrec.1, hrange is, max_eq_left (not_lt.mp hgt)]
        · rw [hrec.2.1, scoreField_scI o q f scI fu hsh, List.foldl_cons]
        · rw [hrec.2.2, scoreField_fu o q f scI fu]
          cases hstf : o.score_test_fused <;>
            simp [hstf, List.foldl_cons]

/-- **C5** (amended: the original claim's `query_score` sums each lane's
best over ALL the item's fields, but the field loop of `_searchIndex` can
exit early once a field's boosted score beats `item_score` and
`field_good_enough`, and the per-lane bests of the remaining fields are
then never folded in.  Under the proviso that no field triggers the early
exit, the claim's formula is exact.) -/
theorem score_item_mixing (o : Options) (q : Query)
    (fields : List (List Str))
    (hspt : o.score_per_token = true) (hsingle : q.single = false)
    (hnb : ∀ j, j < fields.length →
      fieldScoreSpec o q (fields.getD j []) *
        (1 + o.bonus_position_decay ^ j) ≤ o.field_good_enough) :
    (scoreItem o q fields).1 = claimItemScoreSpec o q fields := by
  have hrec := fieldLoop_nobreak o q hspt hsingle fields 0 0 (-1) 1
    (q.tokens_groups.map fun g => g.tokens.map fun _ => (0 : ℚ)) 0
    (by simp [List.map_map, Function.comp_def])
    (by intro j hj; simpa using hnb j hj)
  have hbb : (fieldLoop o q fields 0 0 (-1) 1
      (q.tokens_groups.map fun g => g.tokens.map fun _ => (0 : ℚ)) 0).1 =
      bestBoostedSpec o q fields := by
    rw [hrec.1]
    unfold bestBoostedSpec
    simp only [one_mul]
  have hsci : (fieldLoop o q fields 0 0 (-1) 1
      (q.tokens_groups.map fun g => g.tokens.map fun _ => (0 : ℚ)) 0).2.2.1 =
      q.tokens_groups.map (fun g =>
        (List.range g.tokens.length).map (laneBestSpec o g fields)) := by
    rw [hrec.2.1]
    simp only [scIStepSpec]
    rw [foldl_zipWith_comm (fun g f sl => List.zipWith (fun b s => max s b.1)
      (bestOverField o g f) sl) fields q.tokens_groups _ (by simp)]
    rw [List.zipWith_map_right, List.zipWith_same]
    simp only [laneFold_eq_range]
  have hfu : (fieldLoop o q fields 0 0 (-1) 1
      (q.tokens_groups.map fun g => g.tokens.map fun _ => (0 : ℚ)) 0).2.2.2 =
      fusedScoreSpec o q fields := by
    rw [hrec.2.2]
    unfold fusedScoreSpec
    rfl
  have hcond : o.score_per_token = true ∧ ¬(q.single = true) :=
    ⟨hspt, by rw [hsingle]; simp⟩
  simp only [scoreItem, claimItemScoreSpec]
  rw [if_pos hcond, if_pos hcond]
  simp only [hbb, hsci, hfu]
  rw [if_gt_eq_max, max_comm]
  congr 2
  simp [queryScoreSpec, List.map_map, Function.comp_def]

theorem score_item_mixing_witness :
    (defaultOptions.score_per_token = true ∧
      (Query.mk ['a'] [] ['a'] (AlphaMap.bits emptyBitMap) false).single =
        false ∧
      (∀ j, j < ([] : List (List Str)).length →
        fieldScoreSpec defaultOptions
          (Query.mk ['a'] [] ['a'] (AlphaMap.bits emptyBitMap) false)
          (([] : List (List Str)).getD j []) *
          (1 + defaultOptions.bonus_position_decay ^ j) ≤
          defaultOptions.field_good_enough)) ∧
    (scoreItem defaultOptions
        (Query.mk ['a'] [] ['a'] (AlphaMap.bits emptyBitMap) false) []).1 =
      claimItemScoreSpec defaultOptions
        (Query.mk ['a'] [] ['a'] (AlphaMap.bits emptyBitMap) false) [] :=
  ⟨⟨rfl, rfl, fun j hj => absurd hj (by simp)⟩,
    score_item_mixing defaultOptions
      (Query.mk ['a'] [] ['a'] (AlphaMap.bits emptyBitMap) false) [] rfl rfl
      (fun j hj => absurd hj (by simp))⟩

/-- **C5** (counterexample to the unamended claim): query
`"abcdefg hi"` (two tokens, one pack group), item fields
`[["abcdefg"], ["hi"]]`, default options.  The first field's boosted score
`25` beats `field_good_enough = 20`, so the field loop exits before
scoring the second field, and lane `"hi"`'s best stays `0` instead of `3`:
the code computes `1/2·25 + 1/2·(21/2) = 71/4`, while the claim's formula
(lane bests over ALL fields) gives `1/2·25 + 1/2·(21/2 + 3) = 77/4`. -/
theorem score_item_skips_unvisited_fields :
    (scoreItem defaultOptions
        (Query.mk ['a','b','c','d','e','f','g',' ','h','i']
          (pack_tokens [['a','b','c','d','e','f','g'], ['h','i']])
          ['a','b','c','d','e','f','g',' ','h','i']
          (AlphaMap.bits emptyBitMap) false)
        [[['a','b','c','d','e','f','g']], [['h','i']]]).1 = 71/4 ∧
    claimItemScoreSpec defaultOptions
        (Query.mk ['a','b','c','d','e','f','g',' ','h','i']
          (pack_tokens [['a','b','c','d','e','f','g'], ['h','i']])
          ['a','b','c','d','e','f','g',' ','h','i']
          (AlphaMap.bits emptyBitMap) false)
        [[['a','b','c','d','e','f','g']], [['h','i']]] = 77/4 ∧
    (71 / 4 : ℚ) ≠ 77 / 4 := by
  have hpack : pack_tokens [['a','b','c','d','e','f','g'], ['h','i']] =
      [PackInfo.mk [['a','b','c','d','e','f','g'], ['h','i']]
        (AlphaMap.bits (bitVector ['h','i']
          (bitVector ['a','b','c','d','e','f','g'] emptyBitMap 0) 7)) 191] := by
    simp [pack_tokens, packGo, INT_SIZE]
  have hsp1 : score_pack (PackInfo.mk [['a','b','c','d','e','f','g'], ['h','i']]
      (AlphaMap.bits (bitVector ['h','i']
        (bitVector ['a','b','c','d','e','f','g'] emptyBitMap 0) 7)) 191)
      ['a','b','c','d','e','f','g'] defaultOptions = [21/2, 0] := by
    simp [score_pack, packStep, packLanes, popLoop, popLoopGo, commonPfx,
      defaultOptions, AlphaMap.getBits, bitVector, bitVecGo, emptyBitMap]
    norm_num
  have hsp2 : score_pack (PackInfo.mk [['a','b','c','d','e','f','g'], ['h','i']]
      (AlphaMap.bits (bitVector ['h','i']
        (bitVector ['a','b','c','d','e','f','g'] emptyBitMap 0) 7)) 191)
      ['h','i'] defaultOptions = [0, 3] := by
    simp [score_pack, packStep, packLanes, popLoop, popLoopGo, commonPfx,
      defaultOptions, AlphaMap.getBits, bitVector, bitVecGo, emptyBitMap]
    norm_num
  have hbof1 : bestOverField defaultOptions
      (PackInfo.mk [['a','b','c','d','e','f','g'], ['h','i']]
        (AlphaMap.bits (bitVector ['h','i']
          (bitVector ['a','b','c','d','e','f','g'] emptyBitMap 0) 7)) 191)
      [['a','b','c','d','e','f','g']] = [(21/2, 0), (0, 0)] := by
    simp [bestOverField, updBest, hsp1]
  have hbof2 : bestOverField defaultOptions
      (PackInfo.mk [['a','b','c','d','e','f','g'], ['h','i']]
        (AlphaMap.bits (bitVector ['h','i']
          (bitVector ['a','b','c','d','e','f','g'] emptyBitMap 0) 7)) 191)
      [['h','i']] = [(0, 0), (3, 0)] := by
    simp [bestOverField, updBest, hsp2]
  have ho1 : defaultOptions.score_per_token = true := rfl
  have ho2 : defaultOptions.score_test_fused = false := rfl
  have ho3 : defaultOptions.minimum_match = 1 := rfl
  have ho4 : defaultOptions.bonus_token_order = 2 := rfl
  have ho5 : defaultOptions.field_good_enough = 20 := rfl
  have ho6 : defaultOptions.bonus_position_decay = 7/10 := rfl
  have hsf1 : scoreField defaultOptions
      (Query.mk ['a','b','c','d','e','f','g',' ','h','i']
        [PackInfo.mk [['a','b','c','d','e','f','g'], ['h','i']]
          (AlphaMap.bits (bitVector ['h','i']
            (bitVector ['a','b','c','d','e','f','g'] emptyBitMap 0) 7)) 191]
        ['a','b','c','d','e','f','g',' ','h','i']
        (AlphaMap.bits emptyBitMap) false)
      [['a','b','c','d','e','f','g']] [[0, 0]] 0 =
      (25/2, [[21/2, 0]], 0) := by
    norm_num [scoreField, sfGroups, hbof1, laneLoop, ho2, ho3, ho4]
  have hsf2 : scoreField defaultOptions
      (Query.mk ['a','b','c','d','e','f','g',' ','h','i']
        [PackInfo.mk [['a','b','c','d','e','f','g'], ['h','i']]
          (AlphaMap.bits (bitVector ['h','i']
            (bitVector ['a','b','c','d','e','f','g'] emptyBitMap 0) 7)) 191]
        ['a','b','c','d','e','f','g',' ','h','i']
        (AlphaMap.bits emptyBitMap) false)
      [['h','i']] [[0, 0]] 0 = (5, [[0, 3]], 0) := by
    norm_num [scoreField, sfGroups, hbof2, laneLoop, ho2, ho3, ho4]
  have hfs1 : fieldScoreSpec defaultOptions
      (Query.mk ['a','b','c','d','e','f','g',' ','h','i']
        [PackInfo.mk [['a','b','c','d','e','f','g'], ['h','i']]
          (AlphaMap.bits (bitVector ['h','i']
            (bitVector ['a','b','c','d','e','f','g'] emptyBitMap 0) 7)) 191]
        ['a','b','c','d','e','f','g',' ','h','i']
        (AlphaMap.bits emptyBitMap) false)
      [['a','b','c','d','e','f','g']] = 25/2 := by
    norm_num [fieldScoreSpec, hsf1, List.replicate_succ]
  have hfs2 : fieldScoreSpec defaultOptions
      (Query.mk ['a','b','c','d','e','f','g',' ','h','i']
        [PackInfo.mk [['a','b','c','d','e','f','g'], ['h','i']]
          (AlphaMap.bits (bitVector ['h','i']
            (bitVector ['a','b','c','d','e','f','g'] emptyBitMap 0) 7)) 191]
        ['a','b','c','d','e','f','g',' ','h','i']
        (AlphaMap.bits emptyBitMap) false)
      [['h','i']] = 5 := by
    norm_num [fieldScoreSpec, hsf2, List.replicate_succ]
  refine ⟨?_, ?_, by norm_num⟩
  · norm_num [scoreItem, fieldLoop, hpack, hsf1, ho1, ho5,
      List.replicate_succ]
  · norm_num [claimItemScoreSpec, bestBoostedSpec, queryScoreSpec,
      fusedScoreSpec, laneBestSpec, hpack, hfs1, hfs2, hbof1, hbof2, ho1,
      ho2, ho6, List.range_succ, max_def, List.replicate_succ]
/-- Spec-side: validity of a row→column assignment (one entry per row,
`-1` = unmatched): a matched column is inside the row (capped at the
32-bit lane limit, as in the solver), not used before, and meets the
row's inclusion threshold. -/
def okCols : List (List ℚ) → List ℚ → List ℤ → ℕ → Bool
  | [], _, [], _ => true
  | row :: Cr, ths, c :: πr, used =>
      if c = -1 then okCols Cr ths.tail πr used
      else if 0 ≤ c then
        decide (c.toNat < min row.length 32) &&
        decide (used &&& (1 <<< c.toNat) = 0) &&
        decide (ths.headD 0 ≤ row.getD c.toNat 0) &&
        okCols Cr ths.tail πr (used ||| (1 <<< c.toNat))
      else false
  | _, _, _, _ => false

/-- Spec-side: total score of an assignment (unmatched rows contribute
`0`). -/
def sumScore : List (List ℚ) → List ℤ → ℚ
  | row :: Cr, c :: πr =>
      (if 0 ≤ c then row.getD c.toNat 0 else 0) + sumScore Cr πr
  | _, _ => 0

/-- Spec-side: the column loop of the solver without the cache: fold the
candidate columns, keeping the best `(score, column)` seen so far. -/
def pnLoop (row : List ℚ) (th : ℚ) (used : ℕ) (val : ℕ → ℚ) :
    List ℕ → ℚ × ℤ → ℚ × ℤ
  | [], b => b
  | j :: js, b =>
      let b' :=
        if used &&& (1 <<< j) ≠ 0 then b
        else if row.getD j 0 < th then b
        else if val j > b.1 then (val j, (j : ℤ)) else b
      pnLoop row th used val js b'

/-- Spec-side: the cache-free value/choice of the solver's recursion on a
suffix of the score matrix: the best `(score, chosen column)` over
assignments of the remaining rows under the `used` column mask (`-1` =
leave this row unmatched). -/
def pureNode (ths : List ℚ) : List (List ℚ) → ℕ → ℚ × ℤ
  | [], _ => (0, -1)
  | row :: Cr, used =>
      let th := ths.headD 0
      let best := pnLoop row th used
        (fun j =>
          if Cr ≠ [] then
            row.getD j 0 + (pureNode ths.tail Cr (used ||| (1 <<< j))).1
          else row.getD j 0)
        (List.range (min row.length 32)) (0, -1)
      if Cr ≠ [] then
        let s := (pureNode ths.tail Cr used).1
        if s > best.1 then (s, -1) else best
      else best

/-- Spec-side: the assignment obtained by following the solver's choices
row by row. -/
def traceSpec (ths : List ℚ) : List (List ℚ) → ℕ → List ℤ
  | [], _ => []
  | row :: Cr, used =>
      let e := pureNode ths (row :: Cr) used
      e.2 :: traceSpec ths.tail Cr
        (if 0 ≤ e.2 then used ||| (1 <<< e.2.toNat) else used)

theorem pnLoop_ge_init (row : List ℚ) (th : ℚ) (used : ℕ) (val : ℕ → ℚ) :
    ∀ (js : List ℕ) (b : ℚ × ℤ), b.1 ≤ (pnLoop row th used val js b).1 := by
  intro js
  induction js with
  | nil => intro b; exact le_rfl
  | cons j rest ih =>
      intro b
      rw [pnLoop]
      refine le_trans ?_ (ih _)
      split_ifs <;> simp_all <;> linarith

theorem pnLoop_ge_val (row : List ℚ) (th : ℚ) (used : ℕ) (val : ℕ → ℚ) :
    ∀ (js : List ℕ) (b : ℚ × ℤ) (j : ℕ), j ∈ js →
      used &&& (1 <<< j) = 0 → ¬(row.getD j 0 < th) →
      val j ≤ (pnLoop row th used val js b).1 := by
  intro js
  induction js with
  | nil => intro b j hj; simp at hj
  | cons j0 rest ih =>
      intro b j hj hfree hth
      rw [pnLoop]
      rcases List.mem_cons.mp hj with he | hm
      · subst he
        refine le_trans ?_ (pnLoop_ge_init row th used val rest _)
        rw [if_neg (by simpa using hfree), if_neg hth]
        split_ifs with h
        · exact le_rfl
        · exact le_of_not_lt h
      · exact ih _ j hm hfree hth

/-- The loop invariant: the running best is either still the initial
`(0, -1)` or records a column that passed all the gates together with its
value. -/
theorem pnLoop_inv (row : List ℚ) (th : ℚ) (used : ℕ) (val : ℕ → ℚ)
    (jl : ℕ) :
    ∀ (js : List ℕ) (b : ℚ × ℤ),
      (∀ j ∈ js, j < jl) →
      (b = (0, -1) ∨ ∃ j, j < jl ∧ b.2 = (j : ℤ) ∧
        used &&& (1 <<< j) = 0 ∧ ¬(row.getD j 0 < th) ∧ b.1 = val j) →
      ((pnLoop row th used val js b) = (0, -1) ∨
        ∃ j, j < jl ∧ (pnLoop row th used val js b).2 = (j : ℤ) ∧
          used &&& (1 <<< j) = 0 ∧ ¬(row.getD j 0 < th) ∧
          (pnLoop row th used val js b).1 = val j) := by
  intro js
  induction js with
  | nil => intro b _ hb; exact hb
  | cons j0 rest ih =>
      intro b hjl hb
      rw [pnLoop]
      refine ih _ (fun j hj => hjl j (List.mem_cons_of_mem j0 hj)) ?_
      split_ifs with h1 h2 h3
      · exact hb
      · exact hb
      · exact Or.inr ⟨j0, hjl j0 (by simp), rfl, by simpa using h1, h2, rfl⟩
      · exact hb

theorem pureNode_nonneg (ths : List ℚ) :
    ∀ (Csuf : List (List ℚ)) (used : ℕ), 0 ≤ (pureNode ths Csuf used).1 := by
  intro Csuf
  induction Csuf generalizing ths with
  | nil => intro used; exact le_rfl
  | cons row Cr ih =>
      intro used
      simp only [pureNode]
      split_ifs with h1 h2
      · exact ih ths.tail used
      · exact pnLoop_ge_init row (ths.headD 0) used _
          (List.range (min row.length 32)) (0, -1)
      · exact pnLoop_ge_init row (ths.headD 0) used _
          (List.range (min row.length 32)) (0, -1)

/-- If the solver's choice for a row is `-1`, its value is the value of
leaving the row unmatched. -/
theorem pureNode_neg_val (ths : List ℚ) (row : List ℚ) (Cr : List (List ℚ))
    (used : ℕ) (hneg : (pureNode ths (row :: Cr) used).2 = -1) :
    (pureNode ths (row :: Cr) used).1 =
      (if Cr ≠ [] then (pureNode ths.tail Cr used).1 else 0) := by
  by_cases hCr : Cr ≠ []
  · have hinv := pnLoop_inv row (ths.headD 0) used
      (fun j => row.getD j 0 + (pureNode ths.tail Cr (used ||| (1 <<< j))).1)
      (min row.length 32) (List.range (min row.length 32)) (0, -1)
      (fun j hj => List.mem_range.mp hj) (Or.inl rfl)
    simp only [pureNode, if_pos hCr] at hneg ⊢
    split_ifs at hneg ⊢ with h2
    · rfl
    · rcases hinv with h | ⟨j, _, hj2, _, _, _⟩
      · push_neg at h2
        rw [h] at h2 ⊢
        have hn := pureNode_nonneg ths.tail Cr used
        exact le_antisymm hn (by simpa using h2)
      · exfalso
        rw [hj2] at hneg
        omega
  · have hinv := pnLoop_inv row (ths.headD 0) used
      (fun j => row.getD j 0)
      (min row.length 32) (List.range (min row.length 32)) (0, -1)
      (fun j hj => List.mem_range.mp hj) (Or.inl rfl)
    simp only [pureNode, if_neg hCr] at hneg ⊢
    rcases hinv with h | ⟨j, _, hj2, _, _, _⟩
    · rw [h]
    · exfalso
      rw [hj2] at hneg
      omega

/-- If the solver's choice for a row is column `j`, the column passed its
gates and the value decomposes as the column's score plus the child
value. -/
theorem pureNode_pos_val (ths : List ℚ) (row : List ℚ) (Cr : List (List ℚ))
    (used : ℕ) (j : ℕ) (hpos : (pureNode ths (row :: Cr) used).2 = (j : ℤ)) :
    j < min row.length 32 ∧ used &&& (1 <<< j) = 0 ∧
    ¬(row.getD j 0 < ths.headD 0) ∧
    (pureNode ths (row :: Cr) used).1 =
      row.getD j 0 +
        (if Cr ≠ [] then (pureNode ths.tail Cr (used ||| (1 <<< j))).1
         else 0) := by
  by_cases hCr : Cr ≠ []
  · have hinv := pnLoop_inv row (ths.headD 0) used
      (fun j => row.getD j 0 + (pureNode ths.tail Cr (used ||| (1 <<< j))).1)
      (min row.length 32) (List.range (min row.length 32)) (0, -1)
      (fun j hj => List.mem_range.mp hj) (Or.inl rfl)
    simp only [pureNode, if_pos hCr] at hpos ⊢
    split_ifs at hpos ⊢ with h2
    · exfalso
      simp at hpos
    · rcases hinv with h | ⟨j', hj0, hj2, hfree, hth, hj1⟩
      · exfalso
        rw [h] at hpos
        simp at hpos
      · rw [hj2] at hpos
        have hjj : j' = j := by exact_mod_cast hpos
        subst hjj
        exact ⟨hj0, hfree, hth, hj1⟩
  · have hinv := pnLoop_inv row (ths.headD 0) used
      (fun j => row.getD j 0)
      (min row.length 32) (List.range (min row.length 32)) (0, -1)
      (fun j hj => List.mem_range.mp hj) (Or.inl rfl)
    simp only [pureNode, if_neg hCr] at hpos ⊢
    rcases hinv with h | ⟨j', hj0, hj2, hfree, hth, hj1⟩
    · exfalso
      rw [h] at hpos
      simp at hpos
    · rw [hj2] at hpos
      have hjj : j' = j := by exact_mod_cast hpos
      subst hjj
      refine ⟨hj0, hfree, hth, ?_⟩
      rw [hj1, add_zero]

theorem pureNode_ge_skip (ths : List ℚ) (row : List ℚ) (Cr : List (List ℚ))
    (used : ℕ) :
    (if Cr ≠ [] then (pureNode ths.tail Cr used).1 else 0) ≤
      (pureNode ths (row :: Cr) used).1 := by
  by_cases hCr : Cr ≠ []
  · simp only [pureNode, if_pos hCr]
    split_ifs with h2
    · exact le_rfl
    · exact le_of_not_lt h2
  · simp only [pureNode, if_neg hCr]
    exact pnLoop_ge_init row (ths.headD 0) used _
      (List.range (min row.length 32)) (0, -1)

theorem pureNode_ge_pick (ths : List ℚ) (row : List ℚ) (Cr : List (List ℚ))
    (used : ℕ) (j : ℕ) (hj : j < min row.length 32)
    (hfree : used &&& (1 <<< j) = 0)
    (hth : ths.headD 0 ≤ row.getD j 0) :
    row.getD j 0 +
      (if Cr ≠ [] then (pureNode ths.tail Cr (used ||| (1 <<< j))).1
       else 0) ≤ (pureNode ths (row :: Cr) used).1 := by
  by_cases hCr : Cr ≠ []
  · simp only [pureNode, if_pos hCr]
    have hv := pnLoop_ge_val row (ths.headD 0) used
      (fun j => row.getD j 0 + (pureNode ths.tail Cr (used ||| (1 <<< j))).1)
      (List.range (min row.length 32)) (0, -1) j
      (List.mem_range.mpr hj) hfree (not_lt.mpr hth)
    split_ifs with h2
    · exact le_trans hv (le_of_lt h2)
    · exact hv
  · simp only [pureNode, if_neg hCr, add_zero]
    exact pnLoop_ge_val row (ths.headD 0) used
      (fun j => row.getD j 0)
      (List.range (min row.length 32)) (0, -1) j
      (List.mem_range.mpr hj) hfree (not_lt.mpr hth)

/-- Completeness half of optimality: no valid assignment beats the
solver's value. -/
theorem sumScore_le_pureNode (ths : List ℚ) :
    ∀ (Csuf : List (List ℚ)) (π : List ℤ) (used : ℕ),
      okCols Csuf ths π used = true →
      sumScore Csuf π ≤ (pureNode ths Csuf used).1 := by
  intro Csuf
  induction Csuf generalizing ths with
  | nil =>
      intro π used hok
      cases π with
      | nil => exact le_rfl
      | cons c πr => simp [okCols] at hok
  | cons row Cr ih =>
      intro π used hok
      cases π with
      | nil => simp [okCols] at hok
      | cons c πr =>
          rw [okCols] at hok
          by_cases hc : c = -1
          · rw [if_pos hc] at hok
            subst hc
            rw [sumScore]
            rw [if_neg (by norm_num)]
            rw [zero_add]
            refine le_trans ?_ (pureNode_ge_skip ths row Cr used)
            by_cases hCr : Cr ≠ []
            · rw [if_pos hCr]
              exact ih ths.tail πr used hok
            · rw [if_neg hCr]
              push_neg at hCr
              subst hCr
              cases πr with
              | nil => exact le_rfl
              | cons c' πr' => simp [okCols] at hok
          · rw [if_neg hc] at hok
            by_cases hc0 : 0 ≤ c
            · rw [if_pos hc0] at hok
              simp only [Bool.and_eq_true, decide_eq_true_eq] at hok
              obtain ⟨⟨⟨hlt, hfree⟩, hth⟩, hok'⟩ := hok
              rw [sumScore, if_pos hc0]
              refine le_trans ?_
                (pureNode_ge_pick ths row Cr used c.toNat hlt hfree hth)
              refine add_le_add_left ?_ _
              by_cases hCr : Cr ≠ []
              · rw [if_pos hCr]
                exact ih ths.tail πr _ hok'
              · rw [if_neg hCr]
                push_neg at hCr
                subst hCr
                have h0 : sumScore [] πr = 0 := by cases πr <;> rfl
                rw [h0]
            · rw [if_neg hc0] at hok
              simp at hok

theorem pureNode_idx (ths : List ℚ) (row : List ℚ) (Cr : List (List ℚ))
    (used : ℕ) :
    (pureNode ths (row :: Cr) used).2 = -1 ∨
    ∃ j : ℕ, (pureNode ths (row :: Cr) used).2 = (j : ℤ) := by
  by_cases hCr : Cr ≠ []
  · have hinv := pnLoop_inv row (ths.headD 0) used
      (fun j => row.getD j 0 + (pureNode ths.tail Cr (used ||| (1 <<< j))).1)
      (min row.length 32) (List.range (min row.length 32)) (0, -1)
      (fun j hj => List.mem_range.mp hj) (Or.inl rfl)
    simp only [pureNode, if_pos hCr]
    split_ifs with h2
    · exact Or.inl rfl
    · rcases hinv with h | ⟨j, _, hj2, _, _, _⟩
      · rw [h]
        exact Or.inl rfl
      · exact Or.inr ⟨j, hj2⟩
  · have hinv := pnLoop_inv row (ths.headD 0) used
      (fun j => row.getD j 0)
      (min row.length 32) (List.range (min row.length 32)) (0, -1)
      (fun j hj => List.mem_range.mp hj) (Or.inl rfl)
    simp only [pureNode, if_neg hCr]
    rcases hinv with h | ⟨j, _, hj2, _, _, _⟩
    · rw [h]
      exact Or.inl rfl
    · exact Or.inr ⟨j, hj2⟩

/-- The traced assignment in `if Cr = []` form: the skip value collapses. -/
theorem pureNode_nil_fst (ths : List ℚ) (used : ℕ) :
    (pureNode ths [] used).1 = 0 := rfl

theorem skip_collapse (ths : List ℚ) (Cr : List (List ℚ)) (used : ℕ) :
    (if Cr ≠ [] then (pureNode ths.tail Cr used).1 else 0) =
      (pureNode ths.tail Cr used).1 := by
  by_cases hCr : Cr ≠ []
  · rw [if_pos hCr]
  · rw [if_neg hCr]
    push_neg at hCr
    subst hCr
    rfl

/-- Soundness half of optimality: the traced assignment is valid. -/
theorem traceSpec_ok (ths : List ℚ) :
    ∀ (Csuf : List (List ℚ)) (used : ℕ),
      okCols Csuf ths (traceSpec ths Csuf used) used = true := by
  intro Csuf
  induction Csuf generalizing ths with
  | nil => intro used; rfl
  | cons row Cr ih =>
      intro used
      rw [traceSpec]
      rcases pureNode_idx ths row Cr used with hneg | ⟨j, hpos⟩
      · rw [okCols]
        simp only [hneg]
        simpa using ih ths.tail used
      · obtain ⟨hlt, hfree, hth, _⟩ := pureNode_pos_val ths row Cr used j hpos
        rw [okCols]
        simp only [hpos]
        rw [if_neg (by omega), if_pos (by omega)]
        simp only [Bool.and_eq_true, decide_eq_true_eq, Int.toNat_ofNat,
          Int.natCast_nonneg, ite_true, if_pos]
        refine ⟨⟨⟨hlt, hfree⟩, not_lt.mp hth⟩, ?_⟩
        simpa using ih ths.tail (used ||| (1 <<< j))

/-- The traced assignment achieves the solver's value. -/
theorem traceSpec_sum (ths : List ℚ) :
    ∀ (Csuf : List (List ℚ)) (used : ℕ),
      sumScore Csuf (traceSpec ths Csuf used) =
        (pureNode ths Csuf used).1 := by
  intro Csuf
  induction Csuf generalizing ths with
  | nil => intro used; rfl
  | cons row Cr ih =>
      intro used
      rw [traceSpec]
      rcases pureNode_idx ths row Cr used with hneg | ⟨j, hpos⟩
      · rw [sumScore]
        simp only [hneg]
        rw [if_neg (by norm_num), zero_add]
        rw [pureNode_neg_val ths row Cr used hneg, skip_collapse]
        rw [if_neg (by norm_num : ¬((0:ℤ) ≤ -1))]
        exact ih ths.tail used
      · obtain ⟨_, _, _, hval⟩ := pureNode_pos_val ths row Cr used j hpos
        rw [sumScore]
        simp only [hpos]
        rw [if_pos (by omega), if_pos (by omega)]
        rw [hval, skip_collapse]
        simp only [Int.toNat_ofNat]
        congr 1
        exact ih ths.tail (used ||| (1 <<< j))

/-- The pure value/choice of the solver at `(depth, mask)`. -/
def nodeAt (C : List (List ℚ)) (ths : List ℚ) (d m : ℕ) : ℚ × ℤ :=
  pureNode (ths.drop d) (C.drop d) m

/-- Cache invariant: every entry holds the pure value of its key, and the
child key its choice leads to is also cached (what the traceback walk
needs). -/
def GoodCache (C : List (List ℚ)) (ths : List ℚ) (κ : Cache) : Prop :=
  ∀ d m e, κ d m = some e →
    e = nodeAt C ths d m ∧
    (d + 1 < C.length →
      κ (d + 1) (if 0 ≤ e.2 then m ||| (1 <<< e.2.toNat) else m) ≠ none)

theorem drop_cons_getD (C : List (List ℚ)) (d : ℕ) (h : d < C.length) :
    C.drop d = C.getD d [] :: C.drop (d + 1) := by
  rw [List.getD_eq_getElem C [] h]
  exact List.drop_eq_getElem_cons h

theorem headD_drop_getD (ths : List ℚ) (d : ℕ) :
    (ths.drop d).headD 0 = ths.getD d 0 := by
  rw [List.headD_eq_head?_getD, List.head?_drop, List.getD_eq_getElem?_getD]

theorem tail_drop_q (ths : List ℚ) (d : ℕ) :
    (ths.drop d).tail = ths.drop (d + 1) := by
  rw [List.tail_drop]

theorem drop_ne_nil_iff (C : List (List ℚ)) (d : ℕ) :
    C.drop (d + 1) ≠ [] ↔ d + 1 < C.length := by
  rw [ne_eq, List.drop_eq_nil_iff]
  omega

theorem nodeAt_leaf (C : List (List ℚ)) (ths : List ℚ) (depth used : ℕ)
    (h : depth < C.length) (hc : ¬(depth + 1 < C.length)) :
    nodeAt C ths depth used =
      pnLoop (C.getD depth []) (ths.getD depth 0) used
        (fun j => (C.getD depth []).getD j 0)
        (List.range (min (C.getD depth []).length 32)) (0, -1) := by
  have hnil : C.drop (depth + 1) = [] := by
    rw [List.drop_eq_nil_iff]
    omega
  unfold nodeAt
  rw [drop_cons_getD C depth h]
  simp only [pureNode, hnil, ne_eq, not_true_eq_false, if_false,
    headD_drop_getD]

theorem nodeAt_node (C : List (List ℚ)) (ths : List ℚ) (depth used : ℕ)
    (h : depth < C.length) (hc : depth + 1 < C.length) :
    nodeAt C ths depth used =
      (let best := pnLoop (C.getD depth []) (ths.getD depth 0) used
        (fun j => (C.getD depth []).getD j 0 +
          (nodeAt C ths (depth + 1) (used ||| (1 <<< j))).1)
        (List.range (min (C.getD depth []).length 32)) (0, -1)
       if (nodeAt C ths (depth + 1) used).1 > best.1 then
         ((nodeAt C ths (depth + 1) used).1, -1)
       else best) := by
  have hne : C.drop (depth + 1) ≠ [] := (drop_ne_nil_iff C depth).mpr hc
  unfold nodeAt
  rw [drop_cons_getD C depth h]
  simp only [pureNode, hne, ne_eq, not_false_eq_true, if_true,
    headD_drop_getD, tail_drop_q]

theorem bstLoop_spec (row : List ℚ) (th : ℚ) (used dkey : ℕ)
    (child : Cache → ℕ → ℚ × Cache) (cv : ℕ → ℚ)
    (G : Cache → Prop)
    (hchild : ∀ κc key, G κc →
      (child κc key).1 = cv key ∧ G (child κc key).2 ∧
      (∀ d m, κc d m ≠ none → (child κc key).2 d m ≠ none) ∧
      (child κc key).2 dkey key ≠ none) :
    ∀ (js : List ℕ) (b1 : ℚ) (b2 : ℤ) (κc : Cache),
      G κc →
      (0 ≤ b2 → κc dkey (used ||| (1 <<< b2.toNat)) ≠ none) →
      (bstLoop row th used true child js (b1, b2, κc)).1 =
        (pnLoop row th used
          (fun j => row.getD j 0 + cv (used ||| (1 <<< j))) js (b1, b2)).1 ∧
      (bstLoop row th used true child js (b1, b2, κc)).2.1 =
        (pnLoop row th used
          (fun j => row.getD j 0 + cv (used ||| (1 <<< j))) js (b1, b2)).2 ∧
      G (bstLoop row th used true child js (b1, b2, κc)).2.2 ∧
      (∀ d m, κc d m ≠ none →
        (bstLoop row th used true child js (b1, b2, κc)).2.2 d m ≠ none) ∧
      (0 ≤ (bstLoop row th used true child js (b1, b2, κc)).2.1 →
        (bstLoop row th used true child js (b1, b2, κc)).2.2 dkey
          (used ||| (1 <<<
            (bstLoop row th used true child js (b1, b2, κc)).2.1.toNat)) ≠
          none) := by
  intro js
  induction js with
  | nil =>
      intro b1 b2 κc hG hpres
      exact ⟨rfl, rfl, hG, fun d m h => h, hpres⟩
  | cons j js ih =>
      intro b1 b2 κc hG hpres
      rw [bstLoop, pnLoop]
      by_cases h1 : used &&& (1 <<< j) ≠ 0
      · simp only [if_pos h1]
        exact ih b1 b2 κc hG hpres
      · simp only [if_neg h1]
        by_cases h2 : row.getD j 0 < th
        · simp only [if_pos h2]
          exact ih b1 b2 κc hG hpres
        · simp only [if_neg h2, eq_self_iff_true, if_true]
          obtain ⟨hcv, hG', hmono', hpres'⟩ :=
            hchild κc (used ||| (1 <<< j)) hG
          simp only [hcv]
          by_cases h3 : row.getD j 0 + cv (used ||| (1 <<< j)) > b1
          · simp only [if_pos h3]
            have := ih (row.getD j 0 + cv (used ||| (1 <<< j))) (j : ℤ)
              (child κc (used ||| (1 <<< j))).2 hG'
              (fun _ => by simpa using hpres')
            exact ⟨this.1, this.2.1, this.2.2.1,
              fun d m h => this.2.2.2.1 d m (hmono' d m h), this.2.2.2.2⟩
          · simp only [if_neg h3]
            have := ih b1 b2 (child κc (used ||| (1 <<< j))).2 hG'
              (fun h => hmono' _ _ (hpres h))
            exact ⟨this.1, this.2.1, this.2.2.1,
              fun d m h => this.2.2.2.1 d m (hmono' d m h), this.2.2.2.2⟩

theorem bstLoop_leaf (row : List ℚ) (th : ℚ) (used : ℕ)
    (child : Cache → ℕ → ℚ × Cache) :
    ∀ (js : List ℕ) (b1 : ℚ) (b2 : ℤ) (κc : Cache),
      (bstLoop row th used false child js (b1, b2, κc)).1 =
        (pnLoop row th used (fun j => row.getD j 0) js (b1, b2)).1 ∧
      (bstLoop row th used false child js (b1, b2, κc)).2.1 =
        (pnLoop row th used (fun j => row.getD j 0) js (b1, b2)).2 ∧
      (bstLoop row th used false child js (b1, b2, κc)).2.2 = κc := by
  intro js
  induction js with
  | nil => intro b1 b2 κc; exact ⟨rfl, rfl, rfl⟩
  | cons j js ih =>
      intro b1 b2 κc
      rw [bstLoop, pnLoop]
      by_cases h1 : used &&& (1 <<< j) ≠ 0
      · simp only [if_pos h1]
        exact ih b1 b2 κc
      · simp only [if_neg h1]
        by_cases h2 : row.getD j 0 < th
        · simp only [if_pos h2]
          exact ih b1 b2 κc
        · simp only [if_neg h2, Bool.false_eq_true, if_false]
          by_cases h3 : row.getD j 0 > b1
          · simp only [if_pos h3]
            exact ih _ _ κc
          · simp only [if_neg h3]
            exact ih b1 b2 κc

theorem write_read (κc : Cache) (depth used : ℕ) (v : ℚ × ℤ) :
    (fun d m =>
      if d = depth then (if m = used then some v else κc d m)
      else κc d m) depth used = some v := by
  simp

theorem goodCache_write (C : List (List ℚ)) (ths : List ℚ) (κc : Cache)
    (depth used : ℕ) (v : ℚ × ℤ)
    (hG : GoodCache C ths κc)
    (hv : v = nodeAt C ths depth used)
    (hclose : depth + 1 < C.length →
      κc (depth + 1)
        (if 0 ≤ v.2 then used ||| (1 <<< v.2.toNat) else used) ≠ none) :
    GoodCache C ths (fun d m =>
      if d = depth then (if m = used then some v else κc d m)
      else κc d m) := by
  intro d m e hdm
  simp only at hdm ⊢
  by_cases hd : d = depth
  · subst hd
    by_cases hm : m = used
    · subst hm
      rw [if_pos rfl, if_pos rfl] at hdm
      have he : e = v := by
        injection hdm with h
        exact h.symm
      subst he
      refine ⟨hv, ?_⟩
      intro hlt
      rw [if_neg (by omega)]
      exact hclose hlt
    · rw [if_pos rfl, if_neg hm] at hdm
      obtain ⟨hval, hcl⟩ := hG d m e hdm
      refine ⟨hval, ?_⟩
      intro hlt
      rw [if_neg (by omega)]
      exact hcl hlt
  · rw [if_neg hd] at hdm
    obtain ⟨hval, hcl⟩ := hG d m e hdm
    refine ⟨hval, ?_⟩
    intro hlt
    by_cases hd1 : d + 1 = depth
    · rw [if_pos hd1]
      by_cases hk : (if 0 ≤ e.2 then m ||| (1 <<< e.2.toNat) else m) = used
      · rw [if_pos hk]
        simp
      · rw [if_neg hk]
        exact hcl hlt
    · rw [if_neg hd1]
      exact hcl hlt

theorem write_mono (κc : Cache) (depth used : ℕ) (v : ℚ × ℤ) :
    ∀ d m, κc d m ≠ none →
      (fun d m =>
        if d = depth then (if m = used then some v else κc d m)
        else κc d m) d m ≠ none := by
  intro d m h
  by_cases hd : d = depth
  · subst hd
    by_cases hm : m = used
    · subst hm
      simp
    · simpa [if_neg hm] using h
  · simpa [if_neg hd] using h

/-- `_buildScoreTree` computes the pure solver value, preserves the cache
invariant, only adds cache entries, and caches its own node. -/
theorem bst_spec (C : List (List ℚ)) (ths : List ℚ) :
    ∀ (fuel : ℕ) (κ : Cache) (used depth : ℕ),
      depth < C.length → C.length ≤ depth + fuel →
      GoodCache C ths κ →
      (buildScoreTree C ths fuel κ used depth).1 =
        (nodeAt C ths depth used).1 ∧
      GoodCache C ths (buildScoreTree C ths fuel κ used depth).2 ∧
      (∀ d m, κ d m ≠ none →
        (buildScoreTree C ths fuel κ used depth).2 d m ≠ none) ∧
      (buildScoreTree C ths fuel κ used depth).2 depth used =
        some (nodeAt C ths depth used) := by
  intro fuel
  induction fuel with
  | zero => intro κ used depth h1 h2 _; omega
  | succ fuel ih =>
      intro κ used depth hdep hfuel hgood
      by_cases hc : depth + 1 < C.length
      · have hdec : decide (depth < C.length - 1) = true :=
          decide_eq_true (by omega)
        have hchild : ∀ (κc : Cache) (key : ℕ), GoodCache C ths κc →
            ((fun (κc : Cache) (key : ℕ) =>
              match κc (depth + 1) key with
              | some e => (e.1, κc)
              | none => buildScoreTree C ths fuel κc key (depth + 1))
              κc key).1 = (nodeAt C ths (depth + 1) key).1 ∧
            GoodCache C ths ((fun (κc : Cache) (key : ℕ) =>
              match κc (depth + 1) key with
              | some e => (e.1, κc)
              | none => buildScoreTree C ths fuel κc key (depth + 1))
              κc key).2 ∧
            (∀ d m, κc d m ≠ none → ((fun (κc : Cache) (key : ℕ) =>
              match κc (depth + 1) key with
              | some e => (e.1, κc)
              | none => buildScoreTree C ths fuel κc key (depth + 1))
              κc key).2 d m ≠ none) ∧
            ((fun (κc : Cache) (key : ℕ) =>
              match κc (depth + 1) key with
              | some e => (e.1, κc)
              | none => buildScoreTree C ths fuel κc key (depth + 1))
              κc key).2 (depth + 1) key ≠ none := by
          intro κc key hG
          simp only
          cases hlook : κc (depth + 1) key with
          | some e =>
              obtain ⟨he, _⟩ := hG (depth + 1) key e hlook
              refine ⟨(by show e.1 = (nodeAt C ths (depth + 1) key).1
                          rw [he]),
                hG, fun d m h => h, ?_⟩
              show κc (depth + 1) key ≠ none
              rw [hlook]
              simp
          | none =>
              have hr := ih κc key (depth + 1) hc (by omega) hG
              refine ⟨hr.1, hr.2.1, hr.2.2.1, ?_⟩
              show (buildScoreTree C ths fuel κc key (depth + 1)).2
                (depth + 1) key ≠ none
              rw [hr.2.2.2]
              simp
        have hkey := bstLoop_spec (C.getD depth []) (ths.getD depth 0) used
          (depth + 1)
          (fun (κc : Cache) (key : ℕ) =>
            match κc (depth + 1) key with
            | some e => (e.1, κc)
            | none => buildScoreTree C ths fuel κc key (depth + 1))
          (fun key => (nodeAt C ths (depth + 1) key).1)
          (GoodCache C ths) hchild
          (List.range (min (C.getD depth []).length 32)) 0 (-1) κ hgood
          (fun h => absurd h (by norm_num))
        have hnode := nodeAt_node C ths depth used hdep hc
        simp only [buildScoreTree, hdec, eq_self_iff_true, if_true]
        have hst2 := hchild _ used hkey.2.2.1
        simp only at hst2 ⊢
        simp only [hkey.1, hkey.2.1, hst2.1]
        by_cases hcmp : (nodeAt C ths (depth + 1) used).1 >
            (pnLoop (C.getD depth []) (ths.getD depth 0) used
              (fun j => (C.getD depth []).getD j 0 +
                (nodeAt C ths (depth + 1) (used ||| (1 <<< j))).1)
              (List.range (min (C.getD depth []).length 32)) (0, -1)).1
        · simp only [if_pos hcmp]
          have hv : ((nodeAt C ths (depth + 1) used).1, (-1 : ℤ)) =
              nodeAt C ths depth used := by
            rw [hnode, if_pos hcmp]
          refine ⟨by rw [hnode, if_pos hcmp], ?_, ?_, ?_⟩
          · refine goodCache_write C ths _ depth used _ hst2.2.1 hv ?_
            intro _
            simp only
            rw [if_neg (by norm_num)]
            exact hst2.2.2.2
          · intro d m h
            exact write_mono _ depth used _ d m
              (hst2.2.2.1 d m (hkey.2.2.2.1 d m h))
          · rw [hv]
        · simp only [if_neg hcmp]
          have hv : ((pnLoop (C.getD depth []) (ths.getD depth 0) used
              (fun j => (C.getD depth []).getD j 0 +
                (nodeAt C ths (depth + 1) (used ||| (1 <<< j))).1)
              (List.range (min (C.getD depth []).length 32)) (0, -1)).1,
              (pnLoop (C.getD depth []) (ths.getD depth 0) used
              (fun j => (C.getD depth []).getD j 0 +
                (nodeAt C ths (depth + 1) (used ||| (1 <<< j))).1)
              (List.range (min (C.getD depth []).length 32)) (0, -1)).2) =
              nodeAt C ths depth used := by
            rw [hnode, if_neg hcmp]
          refine ⟨by rw [hnode, if_neg hcmp], ?_, ?_, ?_⟩
          · refine goodCache_write C ths _ depth used _ hst2.2.1 hv ?_
            intro _
            simp only
            split_ifs with hx
            · refine hst2.2.2.1 _ _ ?_
              rw [← hkey.2.1] at hx ⊢
              exact hkey.2.2.2.2 hx
            · exact hst2.2.2.2
          · intro d m h
            exact write_mono _ depth used _ d m
              (hst2.2.2.1 d m (hkey.2.2.2.1 d m h))
          · rw [hv]
      · have hdec : decide (depth < C.length - 1) = false :=
          decide_eq_false (by omega)
        have hleaf := bstLoop_leaf (C.getD depth []) (ths.getD depth 0) used
          (fun (κc : Cache) (key : ℕ) =>
            match κc (depth + 1) key with
            | some e => (e.1, κc)
            | none => buildScoreTree C ths fuel κc key (depth + 1))
          (List.range (min (C.getD depth []).length 32)) 0 (-1) κ
        have hnode := nodeAt_leaf C ths depth used hdep hc
        simp only [buildScoreTree, hdec, Bool.false_eq_true, if_false]
        simp only [hleaf.1, hleaf.2.1, hleaf.2.2]
        have hv : ((pnLoop (C.getD depth []) (ths.getD depth 0) used
            (fun j => (C.getD depth []).getD j 0)
            (List.range (min (C.getD depth []).length 32)) (0, -1)).1,
            (pnLoop (C.getD depth []) (ths.getD depth 0) used
            (fun j => (C.getD depth []).getD j 0)
            (List.range (min (C.getD depth []).length 32)) (0, -1)).2) =
            nodeAt C ths depth used := by
          rw [hnode]
        refine ⟨by rw [hnode], ?_, ?_, ?_⟩
        · exact goodCache_write C ths κ depth used _ hgood hv
            fun hlt => absurd hlt hc
        · intro d m h
          exact write_mono κ depth used _ d m h
        · rw [hv]
          simp
/-- A bit cleared in a bitwise-or is cleared in each operand. -/
theorem and_or_cancel (a b c : ℕ) (h : (a ||| b) &&& c = 0) : a &&& c = 0 := by
  refine Nat.eq_of_testBit_eq (fun k => ?_)
  have hk := congrArg (fun x => x.testBit k) h
  simp only [Nat.testBit_and, Nat.testBit_or, Nat.zero_testBit] at hk
  simp only [Nat.testBit_and, Nat.zero_testBit]
  cases hu : a.testBit k <;> cases hc : c.testBit k <;> simp_all

/-- Setting a bit makes the test against that bit nonzero. -/
theorem or_shift_and_ne (m k : ℕ) : (m ||| (1 <<< k)) &&& (1 <<< k) ≠ 0 := by
  intro h
  have hk := congrArg (fun x => x.testBit k) h
  simp only [Nat.testBit_and, Nat.testBit_or, Nat.zero_testBit,
    Nat.one_shiftLeft, Nat.testBit_two_pow_self] at hk
  simp at hk

/-- In a valid assignment every matched column's bit is free in the
incoming mask. -/
theorem okCols_free :
    ∀ (π : List ℤ) (C : List (List ℚ)) (ths : List ℚ) (used : ℕ),
      okCols C ths π used = true →
      ∀ i, i < π.length → π.getD i (-1) ≠ -1 →
        used &&& (1 <<< (π.getD i (-1)).toNat) = 0 := by
  intro π
  induction π with
  | nil => intro C ths used _ i hi; simp at hi
  | cons c πr ih =>
      intro C ths used hok i hi hne
      cases C with
      | nil => simp [okCols] at hok
      | cons row Cr =>
          rw [okCols] at hok
          cases i with
          | zero =>
              simp only [List.getD_cons_zero] at hne ⊢
              rw [if_neg hne] at hok
              by_cases hc0 : 0 ≤ c
              · rw [if_pos hc0] at hok
                simp only [Bool.and_eq_true, decide_eq_true_eq] at hok
                exact hok.1.1.2
              · rw [if_neg hc0] at hok
                simp at hok
          | succ i0 =>
              simp only [List.getD_cons_succ] at hne ⊢
              have hi0 : i0 < πr.length := by simpa using hi
              by_cases hc : c = -1
              · rw [if_pos hc] at hok
                exact ih Cr ths.tail used hok i0 hi0 hne
              · rw [if_neg hc] at hok
                by_cases hc0 : 0 ≤ c
                · rw [if_pos hc0] at hok
                  simp only [Bool.and_eq_true, decide_eq_true_eq] at hok
                  exact and_or_cancel used (1 <<< c.toNat) _
                    (ih Cr ths.tail _ hok.2 i0 hi0 hne)
                · rw [if_neg hc0] at hok
                  simp at hok

/-- A valid assignment never repeats a matched column. -/
theorem okCols_distinct :
    ∀ (π : List ℤ) (C : List (List ℚ)) (ths : List ℚ) (used : ℕ),
      okCols C ths π used = true →
      ∀ i i', i < i' → i' < π.length →
        π.getD i (-1) ≠ -1 → π.getD i (-1) ≠ π.getD i' (-1) := by
  intro π
  induction π with
  | nil => intro C ths used _ i i' _ hi'; simp at hi'
  | cons c πr ih =>
      intro C ths used hok i i' hii hi' hne
      cases C with
      | nil => simp [okCols] at hok
      | cons row Cr =>
          rw [okCols] at hok
          cases i with
          | zero =>
              simp only [List.getD_cons_zero] at hne ⊢
              obtain ⟨i0', rfl⟩ : ∃ i0', i' = i0' + 1 := ⟨i' - 1, by omega⟩
              simp only [List.getD_cons_succ]
              rw [if_neg hne] at hok
              by_cases hc0 : 0 ≤ c
              · rw [if_pos hc0] at hok
                simp only [Bool.and_eq_true, decide_eq_true_eq] at hok
                intro heq
                have hfree := okCols_free πr Cr ths.tail _ hok.2 i0'
                  (by simpa using hi') (by rw [← heq]; exact hne)
                rw [← heq] at hfree
                exact or_shift_and_ne used c.toNat hfree
              · rw [if_neg hc0] at hok
                simp at hok
          | succ i0 =>
              obtain ⟨i0', rfl⟩ : ∃ i0', i' = i0' + 1 := ⟨i' - 1, by omega⟩
              simp only [List.getD_cons_succ] at hne ⊢
              by_cases hc : c = -1
              · rw [if_pos hc] at hok
                exact ih Cr ths.tail used hok i0 i0' (by omega)
                  (by simpa using hi') hne
              · rw [if_neg hc] at hok
                by_cases hc0 : 0 ≤ c
                · rw [if_pos hc0] at hok
                  simp only [Bool.and_eq_true, decide_eq_true_eq] at hok
                  exact ih Cr ths.tail _ hok.2 i0 i0' (by omega)
                    (by simpa using hi') hne
                · rw [if_neg hc0] at hok
                  simp at hok

/-- Writing at the length of the left part of an append replaces the head
of the right part. -/
theorem set_append_len :
    ∀ (l1 : List ℤ) (x y : ℤ) (l2 : List ℤ),
      (l1 ++ x :: l2).set l1.length y = l1 ++ y :: l2 := by
  intro l1
  induction l1 with
  | nil => intro x y l2; rfl
  | cons a t ih => intro x y l2; exact congrArg (List.cons a) (ih x y l2)

/-- The traceback walk of `matchScoreGrid`, run against any cache
satisfying `GoodCache` whose current entry is present, follows exactly the
choices of `traceSpec`. -/
theorem msgWalk (C : List (List ℚ)) (ths : List ℚ) (κf : Cache)
    (hgood : GoodCache C ths κf) :
    ∀ (n s m : ℕ) (pre : List ℤ),
      s + n = C.length → pre.length = s →
      (n ≠ 0 → κf s m ≠ none) →
      ((List.range' s n).foldl
        (fun (st : ℕ × List ℤ × Bool) i =>
          if st.2.2 then st
          else
            match κf i st.1 with
            | none => (st.1, st.2.1, true)
            | some e =>
                (if e.2 > -1 then st.1 ||| (1 <<< e.2.toNat) else st.1,
                 st.2.1.set i e.2, false))
        (m, pre ++ List.replicate n (-1), false)).2.1 =
      pre ++ traceSpec (ths.drop s) (C.drop s) m := by
  intro n
  induction n with
  | zero =>
      intro s m pre hsn hpre _
      have hdrop : C.drop s = [] := by
        rw [List.drop_eq_nil_iff]
        omega
      simp [hdrop, traceSpec]
  | succ n ih =>
      intro s m pre hsn hpre hpres
      have hs : s < C.length := by omega
      obtain ⟨e, he⟩ : ∃ e, κf s m = some e := by
        cases hk : κf s m with
        | none => exact absurd hk (hpres (by omega))
        | some e => exact ⟨e, rfl⟩
      have hge := hgood s m e he
      rw [List.range'_succ, List.foldl_cons]
      simp only [he, Bool.false_eq_true, if_false]
      have hset : (pre ++ List.replicate (n + 1) (-1)).set s e.2 =
          (pre ++ [e.2]) ++ List.replicate n (-1) := by
        rw [List.replicate_succ, ← hpre, set_append_len]
        simp
      have hmask : (if e.2 > -1 then m ||| (1 <<< e.2.toNat) else m) =
          (if 0 ≤ e.2 then m ||| (1 <<< e.2.toNat) else m) :=
        if_congr (by omega) rfl rfl
      rw [hset, hmask]
      have hrec := ih (s + 1) (if 0 ≤ e.2 then m ||| (1 <<< e.2.toNat) else m)
        (pre ++ [e.2]) (by omega) (by simp [hpre]) (fun hn => by
          have hc : s + 1 < C.length := by omega
          exact hge.2 hc)
      rw [hrec]
      have htr : traceSpec (ths.drop s) (C.drop s) m =
          e.2 :: traceSpec (ths.drop (s + 1)) (C.drop (s + 1))
            (if 0 ≤ e.2 then m ||| (1 <<< e.2.toNat) else m) := by
        rw [drop_cons_getD C s hs, traceSpec]
        have hee : pureNode (ths.drop s) (C.getD s [] :: C.drop (s + 1)) m =
            e := by
          rw [hge.1]
          unfold nodeAt
          rw [drop_cons_getD C s hs]
        rw [hee, tail_drop_q]
      rw [htr]
      simp

/-- **C4.** For every score matrix with at most 8 rows and at most 8
columns per row and per-row inclusion thresholds, the assignment solver
(`matchScoreGrid`, the memoised `_buildScoreTree` plus its traceback)
returns a mapping that is valid (each matched column lies in its row, is
used at most once, and meets the row's threshold), whose total score is
exactly the solver's returned score, and which is optimal: no valid
row→column mapping has a larger total score.  Moreover the returned
mapping never assigns the same column to two different rows. -/
theorem match_score_grid_optimal (C : List (List ℚ)) (ths : List ℚ)
    (hrows : C.length ≤ 8) (hcols : ∀ row ∈ C, row.length ≤ 8) :
    okCols C ths (matchScoreGrid C ths).2 0 = true ∧
    sumScore C (matchScoreGrid C ths).2 = (matchScoreGrid C ths).1 ∧
    (∀ π, okCols C ths π 0 = true →
      sumScore C π ≤ (matchScoreGrid C ths).1) ∧
    (∀ i i', i < i' → i' < (matchScoreGrid C ths).2.length →
      (matchScoreGrid C ths).2.getD i (-1) ≠ -1 →
      (matchScoreGrid C ths).2.getD i (-1) ≠
        (matchScoreGrid C ths).2.getD i' (-1)) := by
  cases C with
  | nil =>
      have hmg : matchScoreGrid [] ths = (0, []) := rfl
      refine ⟨by rw [hmg]; rfl, by rw [hmg]; rfl, ?_, ?_⟩
      · intro π hok
        cases π with
        | nil => rw [hmg]; exact le_rfl
        | cons c πr => simp [okCols] at hok
      · intro i i' _ hi'
        rw [hmg] at hi'
        simp at hi'
  | cons row Cr =>
      have hgood0 : GoodCache (row :: Cr) ths (fun _ _ => none) :=
        fun d m e h => absurd h (by simp)
      have hbst := bst_spec (row :: Cr) ths (row :: Cr).length
        (fun _ _ => none) 0 0 (by simp) (by omega) hgood0
      have hwalk := msgWalk (row :: Cr) ths
        (buildScoreTree (row :: Cr) ths (row :: Cr).length
          (fun _ _ => none) 0 0).2 hbst.2.1
        (row :: Cr).length 0 0 [] (by omega) rfl
        (fun _ => by rw [hbst.2.2.2]; simp)
      simp only [List.nil_append, List.drop_zero] at hwalk
      have hmg2 : (matchScoreGrid (row :: Cr) ths).2 =
          traceSpec ths (row :: Cr) 0 := by
        simp only [matchScoreGrid]
        rw [List.range_eq_range']
        exact hwalk
      have hmg1 : (matchScoreGrid (row :: Cr) ths).1 =
          (pureNode ths (row :: Cr) 0).1 := by
        simp only [matchScoreGrid]
        rw [hbst.1]
        rfl
      refine ⟨?_, ?_, ?_, ?_⟩
      · rw [hmg2]
        exact traceSpec_ok ths (row :: Cr) 0
      · rw [hmg2, hmg1]
        exact traceSpec_sum ths (row :: Cr) 0
      · intro π hok
        rw [hmg1]
        exact sumScore_le_pureNode ths (row :: Cr) π 0 hok
      · intro i i' hii hi' hne
        rw [hmg2] at hi' hne ⊢
        exact okCols_distinct (traceSpec ths (row :: Cr) 0) (row :: Cr) ths 0
          (traceSpec_ok ths (row :: Cr) 0) i i' hii hi' hne

theorem match_score_grid_optimal_witness :
    (([[(5 : ℚ), 1], [4, 0]] : List (List ℚ)).length ≤ 8 ∧
      ∀ row ∈ ([[(5 : ℚ), 1], [4, 0]] : List (List ℚ)), row.length ≤ 8) ∧
    (okCols [[(5 : ℚ), 1], [4, 0]] [2, 2]
        (matchScoreGrid [[(5 : ℚ), 1], [4, 0]] [2, 2]).2 0 = true ∧
      sumScore [[(5 : ℚ), 1], [4, 0]]
          (matchScoreGrid [[(5 : ℚ), 1], [4, 0]] [2, 2]).2 =
        (matchScoreGrid [[(5 : ℚ), 1], [4, 0]] [2, 2]).1 ∧
      (∀ π, okCols [[(5 : ℚ), 1], [4, 0]] [2, 2] π 0 = true →
        sumScore [[(5 : ℚ), 1], [4, 0]] π ≤
          (matchScoreGrid [[(5 : ℚ), 1], [4, 0]] [2, 2]).1) ∧
      (∀ i i', i < i' →
        i' < (matchScoreGrid [[(5 : ℚ), 1], [4, 0]] [2, 2]).2.length →
        (matchScoreGrid [[(5 : ℚ), 1], [4, 0]] [2, 2]).2.getD i (-1) ≠ -1 →
        (matchScoreGrid [[(5 : ℚ), 1], [4, 0]] [2, 2]).2.getD i (-1) ≠
          (matchScoreGrid [[(5 : ℚ), 1], [4, 0]] [2, 2]).2.getD i' (-1))) :=
  ⟨⟨by norm_num, by
      intro row hrow
      rcases List.mem_cons.mp hrow with h | h
      · rw [h]; norm_num
      · rcases List.mem_cons.mp h with h2 | h2
        · rw [h2]; norm_num
        · simp at h2⟩,
    match_score_grid_optimal [[(5 : ℚ), 1], [4, 0]] [2, 2] (by norm_num)
      (by
        intro row hrow
        rcases List.mem_cons.mp hrow with h | h
        · rw [h]; norm_num
        · rcases List.mem_cons.mp h with h2 | h2
          · rw [h2]; norm_num
          · simp at h2)⟩
end FuzzySearch
